import Mathlib

/-!
# Verification of the l2j-interlude-toolkit core

Shallow embedding of the toolkit's core algorithms, translated from the
Python sources:

* `tools/geodata/l2d_parser.py` — the L2D region codec (parse / write,
  block variants, coordinate conversions, cell access);
* `tools/headless-client/l2_crypto.py` — the login frame builder and the
  game XOR stream cipher;
* `tools/headless-client/scan_state.py` — the region registry and its
  atomic claim operation;
* `tools/headless-client/scan_worker.py` — region materialisation from
  scan data;
* `tools/geodata/geodata_tool.py` / `app.py` — the area-unblock sweep.

Bytes are modelled as `Nat` (with `< 256` hypotheses where the Python
`bytes` type guarantees it), signed 16-bit heights as `Int`, and Python
integer `//` and `%` as `Int.fdiv` / `Int.fmod` (floor semantics).
Operations that can raise in Python (index errors, struct errors) are
modelled with `Option`.
-/

namespace L2J

/-! ## Constants (l2d_parser.py) -/

def BLOCK_CELLS_X : Nat := 8
def BLOCK_CELLS_Y : Nat := 8
def BLOCK_CELLS : Nat := BLOCK_CELLS_X * BLOCK_CELLS_Y  -- 64
def REGION_BLOCKS_X : Nat := 256
def REGION_BLOCKS_Y : Nat := 256
def REGION_BLOCKS : Nat := REGION_BLOCKS_X * REGION_BLOCKS_Y  -- 65536
def REGION_CELLS_X : Nat := REGION_BLOCKS_X * BLOCK_CELLS_X  -- 2048
def REGION_CELLS_Y : Nat := REGION_BLOCKS_Y * BLOCK_CELLS_Y  -- 2048

def TYPE_FLAT : Nat := 0xD0
def TYPE_COMPLEX : Nat := 0xD1
def TYPE_MULTILAYER : Nat := 0xD2

def NSWE_ALL : Nat := 0x0F
def NSWE_ALL_L2D : Nat := 0xFF

/-! ## Little-endian signed 16-bit integers

`struct.unpack_from("<h", ...)` / `struct.pack("<h", ...)`. Decoding maps
two bytes to the signed value; encoding is total here but agrees with
`struct.pack` exactly on the representable range `[-32768, 32767]` (on
which every theorem below applies it). -/

def decodeI16 (lo hi : Nat) : Int :=
  let v : Int := (lo : Int) + 256 * (hi : Int)
  if v < 32768 then v else v - 65536

def encodeI16 (h : Int) : List Nat :=
  let v := (h % 65536).toNat
  [v % 256, v / 256]

/-! ## Data model (l2d_parser.py, `Cell` / block dataclasses / `GeoRegion`) -/

structure Cell where
  height : Int
  nswe : Nat
  deriving DecidableEq, Repr

inductive Block where
  /-- `BlockFlat`: one shared height, all 64 cells fully walkable. -/
  | flat (height : Int)
  /-- `BlockComplex`: 64 cells indexed `x * 8 + y`. -/
  | complex (cells : List Cell)
  /-- `BlockMultilayer`: 64 cell stacks indexed `x * 8 + y`. -/
  | multilayer (cellLayers : List (List Cell))
  deriving DecidableEq, Repr

namespace Block

/-- `get_cell` of the three block dataclasses.  Python raises `IndexError`
when a cell list is too short or a multilayer stack is empty; that is
modelled as `none`.  For multilayer, a layer index beyond the stack falls
back to layer 0 (`layers[0]`, which itself faults on an empty stack). -/
def get_cell (b : Block) (x y : Nat) (layer : Nat) : Option Cell :=
  match b with
  | .flat h => some ⟨h, NSWE_ALL_L2D⟩
  | .complex cells => cells.get? (x * BLOCK_CELLS_Y + y)
  | .multilayer cellLayers =>
    match cellLayers.get? (x * BLOCK_CELLS_Y + y) with
    | none => none
    | some layers => if layer < layers.length then layers.get? layer else layers.head?

/-- `get_layers` of the three block dataclasses (`none` models the
`IndexError` on an out-of-range stack index). -/
def get_layers (b : Block) (x y : Nat) : Option (List Cell) :=
  match b with
  | .flat h => some [⟨h, NSWE_ALL_L2D⟩]
  | .complex cells => (cells.get? (x * BLOCK_CELLS_Y + y)).map (fun c => [c])
  | .multilayer cellLayers => cellLayers.get? (x * BLOCK_CELLS_Y + y)

end Block

structure GeoRegion where
  region_x : Int
  region_y : Int
  blocks : List Block
  deriving DecidableEq, Repr

namespace GeoRegion

/-- `GeoRegion.get_block` — `blocks[bx * 256 + by]`. -/
def get_block (r : GeoRegion) (bx by' : Nat) : Option Block :=
  r.blocks.get? (bx * REGION_BLOCKS_Y + by')

/-- `GeoRegion.get_cell` — divides the cell coordinate into block and
local coordinate and delegates. -/
def get_cell (r : GeoRegion) (cx cy : Nat) (layer : Nat) : Option Cell :=
  match r.get_block (cx / BLOCK_CELLS_X) (cy / BLOCK_CELLS_Y) with
  | none => none
  | some b => b.get_cell (cx % BLOCK_CELLS_X) (cy % BLOCK_CELLS_Y) layer

/-- `GeoRegion.get_layers`. -/
def get_layers (r : GeoRegion) (cx cy : Nat) : Option (List Cell) :=
  match r.get_block (cx / BLOCK_CELLS_X) (cy / BLOCK_CELLS_Y) with
  | none => none
  | some b => b.get_layers (cx % BLOCK_CELLS_X) (cy % BLOCK_CELLS_Y)

end GeoRegion

/-! ## Parsing (`parse_l2d`)

The Python walks a byte buffer with a cursor; here each step consumes a
prefix of a `List Nat` and returns the rest.  `none` models every way the
Python can raise (`IndexError` past the end of `data`, `struct.error`,
and the explicit `ValueError` on an unknown block type). -/

/-- Read `n` complex/multilayer cell records `[nswe, height_lo, height_hi]`. -/
def parseCells : Nat → List Nat → Option (List Cell × List Nat)
  | 0, data => some ([], data)
  | n + 1, nswe :: lo :: hi :: rest =>
    match parseCells n rest with
    | some (cs, rest') => some (⟨decodeI16 lo hi, nswe⟩ :: cs, rest')
    | none => none
  | _ + 1, _ => none

/-- Read `n` multilayer cell stacks `[layer_count, record * layer_count]`. -/
def parseStacks : Nat → List Nat → Option (List (List Cell) × List Nat)
  | 0, data => some ([], data)
  | n + 1, cnt :: rest =>
    match parseCells cnt rest with
    | some (layers, rest') =>
      match parseStacks n rest' with
      | some (ls, rest'') => some (layers :: ls, rest'')
      | none => none
    | none => none
  | _ + 1, [] => none

/-- One iteration of the `parse_l2d` block loop: a 1-byte block type
followed by the variant payload. -/
def parseBlock : List Nat → Option (Block × List Nat)
  | [] => none
  | t :: rest =>
    if t = TYPE_FLAT then
      match rest with
      | lo :: hi :: rest' => some (.flat (decodeI16 lo hi), rest')
      | _ => none
    else if t = TYPE_COMPLEX then
      match parseCells BLOCK_CELLS rest with
      | some (cs, rest') => some (.complex cs, rest')
      | none => none
    else if t = TYPE_MULTILAYER then
      match parseStacks BLOCK_CELLS rest with
      | some (ls, rest') => some (.multilayer ls, rest')
      | none => none
    else none

/-- `n` iterations of the block loop, returning the blocks and the bytes
left over after them. -/
def parseBlocks : Nat → List Nat → Option (List Block × List Nat)
  | 0, data => some ([], data)
  | n + 1, data =>
    match parseBlock data with
    | some (b, rest) =>
      match parseBlocks n rest with
      | some (bs, rest') => some (b :: bs, rest')
      | none => none
    | none => none

/-- `parse_l2d`: decode exactly `REGION_BLOCKS` (65 536) blocks from the
file contents.  The Python reads `(region_x, region_y)` from the file
name; they are arguments here.  Note the Python returns as soon as the
65 536th block is decoded, without checking that the buffer is exhausted:
leftover bytes after the last block are ignored. -/
def parse_l2d (region_x region_y : Int) (data : List Nat) : Option GeoRegion :=
  match parseBlocks REGION_BLOCKS data with
  | some (bs, _) => some ⟨region_x, region_y, bs⟩
  | none => none

/-! ## Writing (`write_l2d`)

Total functions; `struct.pack("<h", h)` raises outside
`[-32768, 32767]`, where `encodeI16` instead wraps — every theorem below
applies `write` only to heights produced by `decodeI16`, which are in
range. -/

/-- One complex/multilayer cell record: `nswe & 0xFF` then the height. -/
def writeCell (c : Cell) : List Nat :=
  c.nswe % 256 :: encodeI16 c.height

def writeBlock : Block → List Nat
  | .flat h => TYPE_FLAT :: encodeI16 h
  | .complex cells => TYPE_COMPLEX :: (cells.map writeCell).flatten
  | .multilayer cellLayers =>
    TYPE_MULTILAYER ::
      (cellLayers.map (fun layers => layers.length :: (layers.map writeCell).flatten)).flatten

def writeBlocks (bs : List Block) : List Nat :=
  (bs.map writeBlock).flatten

/-- `write_l2d` emits the blocks in storage order. -/
def write_l2d (r : GeoRegion) : List Nat :=
  writeBlocks r.blocks

/-! ## Coordinate conversions (l2d_parser.py)

Python `//` and `%` on `int` are floor division and floor modulus:
`Int.fdiv` / `Int.fmod`. -/

/-- `region_to_world_coords`. -/
def region_to_world_coords (region_x region_y cell_x cell_y : Int) : Int × Int :=
  (((region_x - 11) * (REGION_CELLS_X : Int) + cell_x) * 16 + -327680,
   ((region_y - 10) * (REGION_CELLS_Y : Int) + cell_y) * 16 + -262144)

/-- `world_to_region_coords`. -/
def world_to_region_coords (world_x world_y : Int) : Int × Int × Int × Int :=
  let geo_x := (world_x + 327680).fdiv 16
  let geo_y := (world_y + 262144).fdiv 16
  (geo_x.fdiv (REGION_CELLS_X : Int) + 11,
   geo_y.fdiv (REGION_CELLS_Y : Int) + 10,
   geo_x.fmod (REGION_CELLS_X : Int),
   geo_y.fmod (REGION_CELLS_Y : Int))

/-! ## Little-endian u32 access (`struct.unpack_from("<I", …)` /
`struct.pack_into("<I", …)`)

Shared by the login checksum and the game cipher counter. -/

/-- `struct.unpack_from("<I", data, i)[0]`. -/
def u32At (data : List Nat) (i : Nat) : Nat :=
  data.getD i 0 + 256 * data.getD (i + 1) 0 + 65536 * data.getD (i + 2) 0 +
    16777216 * data.getD (i + 3) 0

/-- `struct.pack_into("<I", data, p, v)` for `v < 2^32`. -/
def packU32 (data : List Nat) (p v : Nat) : List Nat :=
  (((data.set p (v % 256)).set (p + 1) (v / 256 % 256)).set (p + 2)
    (v / 65536 % 256)).set (p + 3) (v / 16777216 % 256)

/-! ## Game XOR stream cipher (l2_crypto.py, `GameCrypt`)

Bytes are `Nat`s; `& 0xFF` is `% 256`, `i & 15` is `i % 16`.  Python
indexes `key[i & 15]` directly (an `IndexError` on a short key); the
model uses `getD _ 0`, and every theorem carries `key.length = 16` so
the default is never consulted. -/

structure GameCrypt where
  in_key : List Nat
  out_key : List Nat
  enabled : Bool
  deriving DecidableEq, Repr

namespace GameCrypt

/-- `GameCrypt.__init__`: both directions start from copies of the same
16-byte key, disabled. -/
def init (key : List Nat) : GameCrypt := ⟨key, key, false⟩

/-- Bytes 8–11 of a key as a little-endian u32
(`struct.unpack_from("<I", key, 8)`). -/
def keyCounter (key : List Nat) : Nat :=
  u32At key 8

/-- `struct.pack_into("<I", key, 8, v)` for `v < 2^32`. -/
def setCounter (key : List Nat) (v : Nat) : List Nat :=
  packU32 key 8 v

/-- `GameCrypt._advance_key`: add `size` to the counter mod 2^32. -/
def _advance_key (key : List Nat) (size : Nat) : List Nat :=
  setCounter key ((keyCounter key + size) % 4294967296)

/-- The `decrypt` loop: `temp` feeds back the *pre-decryption* byte. -/
def decryptBytes (key : List Nat) : Nat → Nat → List Nat → List Nat
  | _, _, [] => []
  | i, temp, b :: rest =>
    let temp2 := b % 256
    ((temp2 ^^^ key.getD (i % 16) 0) ^^^ temp) % 256 ::
      decryptBytes key (i + 1) temp2 rest

/-- The `encrypt` loop: `temp` feeds back the *post-encryption* byte. -/
def encryptBytes (key : List Nat) : Nat → Nat → List Nat → List Nat
  | _, _, [] => []
  | i, temp, b :: rest =>
    let temp2 := b % 256
    let t := (temp2 ^^^ key.getD (i % 16) 0) ^^^ temp
    t % 256 :: encryptBytes key (i + 1) t rest

/-- `GameCrypt.decrypt`: passthrough while not enabled (decrypt never
sets the flag), otherwise XOR-decrypt and advance the in-counter by the
buffer length. -/
def decrypt (c : GameCrypt) (data : List Nat) : GameCrypt × List Nat :=
  if c.enabled then
    ({ c with in_key := _advance_key c.in_key data.length },
      decryptBytes c.in_key 0 0 data)
  else (c, data)

/-- `GameCrypt.encrypt`: the first call passes the data through, sets
the enabled flag and does not touch the counter; later calls XOR-encrypt
and advance the out-counter by the buffer length. -/
def encrypt (c : GameCrypt) (data : List Nat) : GameCrypt × List Nat :=
  if c.enabled then
    ({ c with out_key := _advance_key c.out_key data.length },
      encryptBytes c.out_key 0 0 data)
  else ({ c with enabled := true }, data)

end GameCrypt

/-- One server→client round per packet: the server encrypts, the client
decrypts, both states advance. -/
def exchange (srv cli : GameCrypt) : List (List Nat) → List (List Nat) × GameCrypt × GameCrypt
  | [] => ([], srv, cli)
  | p :: ps =>
    let sc := srv.encrypt p
    let cd := cli.decrypt sc.2
    let rest := exchange sc.1 cd.1 ps
    (cd.2 :: rest.1, rest.2.1, rest.2.2)

/-- The handshake-established relation between the server's encrypting
state and the client's decrypting state. -/
def synced (srv cli : GameCrypt) : Prop :=
  srv.enabled = true ∧ cli.enabled = true ∧ srv.out_key = cli.in_key ∧
    cli.in_key.length = 16 ∧ ∀ b ∈ cli.in_key, b < 256

/-! ## Login frame (l2_crypto.py, `L2Blowfish`, `append_checksum`,
`LoginCrypt.encrypt`)

The Blowfish block primitive comes from the external `Crypto` library,
not this repository; it is a parameter `bfBlock` here.  `L2Blowfish`
wraps it with a little-endian byte swap of each 4-byte half before and
after every 8-byte block. -/

/-- `_swap_endian_block`: reverse each 4-byte half of an 8-byte block. -/
def swapEndianBlock (block : List Nat) : List Nat :=
  (block.take 4).reverse ++ ((block.drop 4).take 4).reverse

/-- The `L2Blowfish.encrypt` loop: process the buffer in 8-byte blocks,
swapping each half-word before and after the library block op. -/
def l2bfProcess (bfBlock : List Nat → List Nat) (data : List Nat) : List Nat :=
  if h : data = [] then []
  else
    swapEndianBlock (bfBlock (swapEndianBlock (data.take 8))) ++
      l2bfProcess bfBlock (data.drop 8)
termination_by data.length
decreasing_by
  simp only [List.length_drop]
  have hpos := List.length_pos.mpr h
  omega

/-- The checksum loop shared by `append_checksum` and `login_checksum`:
XOR of the little-endian u32 words at offsets `off + 4*j`, `j < n`. -/
def xorWords (data : List Nat) (off : Nat) : Nat → Nat
  | 0 => 0
  | n + 1 => xorWords data off n ^^^ u32At data (off + 4 * n)

/-- `append_checksum(data, 0, len(data))`: XOR the u32 words of the
first `len - 4` bytes and write the result into the last 4 bytes.  The
loop runs `⌈count/4⌉` times (`range(0, count, 4)`). -/
def append_checksum (data : List Nat) : List Nat :=
  let count := data.length - 4
  packU32 data count (xorWords data 0 ((count + 3) / 4) % 4294967296)

/-- `LoginCrypt.encrypt` up to the Blowfish call: extend with zero bytes
(`pad_size` to the next multiple of 8, plus 4 for the checksum, plus a
further re-alignment to a multiple of 8), then write the checksum. -/
def loginEncryptBody (data : List Nat) : List Nat :=
  let pad_size := if data.length % 8 ≠ 0 then 8 - data.length % 8 else 0
  let total_pad0 := pad_size + 4
  let total_pad := if (data.length + total_pad0) % 8 ≠ 0 then
      total_pad0 + (8 - (data.length + total_pad0) % 8) else total_pad0
  append_checksum (data ++ List.replicate total_pad 0)

/-- `LoginCrypt.encrypt`: build the padded, checksummed body and
Blowfish-encrypt it with the dynamic key. -/
def LoginCrypt_encrypt (bfBlock : List Nat → List Nat) (data : List Nat) : List Nat :=
  l2bfProcess bfBlock (loginEncryptBody data)

/-! ## Scan worker region materialisation (scan_worker.py,
`ScanWorker._build_region`)

The scanned maps are dict lookups with defaults
(`heights.get((bx, by), 0)`, `nswe_data.get((bx, by), 0xFF)`); dicts are
modelled as functions into `Option`. -/

/-- `ScanWorker._build_region`: one flat block per `(bx, by)` with the
scanned height; the NSWE lookup `n` is computed in the Python loop but
never stored in the block. -/
def _build_region (region_x region_y : Int)
    (heights : Nat × Nat → Option Int) (nswe_data : Nat × Nat → Option Nat) :
    GeoRegion :=
  ⟨region_x, region_y,
    ((List.range REGION_BLOCKS_X).map (fun bx =>
      (List.range REGION_BLOCKS_Y).map (fun by' =>
        Block.flat ((heights (bx, by')).getD 0)))).flatten⟩

/-! ## Scan registry (scan_state.py, `ScanProgress.get_next_region`)

`self._regions` is a `dict[str, RegionState]`, modelled as an
association list with pairwise-distinct keys.  `RegionState` keeps the
fields `get_next_region` reads or writes; SQLite persistence and the SSE
event push are external effects with no bearing on the registry state.
The whole method body runs under `self._lock`, so concurrent callers
execute it atomically in some serial order, which the sequential
`runClaims` below models. -/

inductive RegionStatus where
  | pending
  | scanning
  | complete
  | error
  deriving DecidableEq, Repr

structure RegionState where
  region_x : Int
  region_y : Int
  status : RegionStatus
  assigned_worker : String
  started_at : Nat
  deriving DecidableEq, Repr

/-- Python string `<` (lexicographic on code points), as used by
`sorted(self._regions.keys())`. -/
def strLtB : List Char → List Char → Bool
  | [], [] => false
  | [], _ :: _ => true
  | _ :: _, [] => false
  | a :: as, b :: bs =>
    if a.val < b.val then true
    else if b.val < a.val then false
    else strLtB as bs

def strLeB (a b : String) : Bool := ! strLtB b.data a.data

abbrev Registry := List (String × RegionState)

/-- `sorted(self._regions.keys())`. -/
def sortedKeys (regs : Registry) : List String :=
  List.insertionSort (fun a b => strLeB a b = true) (regs.map Prod.fst)

/-- `self._regions[key]` (first — with distinct keys, only — match). -/
def lookupRegion (regs : Registry) (k : String) : Option RegionState :=
  (regs.find? (fun p => p.1 == k)).map Prod.snd

/-- In-place mutation of the state stored under key `k`. -/
def setRegion (regs : Registry) (k : String) (r : RegionState) : Registry :=
  regs.map (fun p => if p.1 == k then (p.1, r) else p)

/-- The `get_next_region` loop over the sorted key list: the first
PENDING region is marked SCANNING for the worker with the claim time,
and returned. -/
def claimFirst (regs : Registry) (worker : String) (now : Nat) :
    List String → Option (String × RegionState) × Registry
  | [] => (none, regs)
  | k :: ks =>
    match lookupRegion regs k with
    | some r =>
      if r.status = RegionStatus.pending then
        let r' := { r with status := RegionStatus.scanning,
                           assigned_worker := worker, started_at := now }
        (some (k, r'), setRegion regs k r')
      else claimFirst regs worker now ks
    | none => claimFirst regs worker now ks

/-- `ScanProgress.get_next_region` under the lock.  Returns the claimed
region (paired with its dict key) and the updated registry. -/
def get_next_region (regs : Registry) (worker : String) (now : Nat) :
    Option (String × RegionState) × Registry :=
  claimFirst regs worker now (sortedKeys regs)

/-- `N` workers calling `get_next_region` once each, in the serial order
the lock imposes. -/
def runClaims (now : Nat) : Registry → List String →
    List (String × Option (String × RegionState)) × Registry
  | regs, [] => ([], regs)
  | regs, w :: ws =>
    let r := get_next_region regs w now
    let rest := runClaims now r.2 ws
    ((w, r.1) :: rest.1, rest.2)

/-- The successful claims of a run, as (worker, region key) pairs. -/
def claimedPairs (l : List (String × Option (String × RegionState))) :
    List (String × String) :=
  l.filterMap (fun p => p.2.map (fun q => (p.1, q.1)))

/-- Number of PENDING regions. -/
def pendingCount (regs : Registry) : Nat :=
  (regs.filter (fun p => p.2.status == RegionStatus.pending)).length

/-- Shape invariant `parse_l2d` establishes for complex and multilayer
blocks: 64 cells / 64 cell stacks. -/
def blockWF : Block → Prop
  | .flat _ => True
  | .complex cells => cells.length = BLOCK_CELLS
  | .multilayer ls => ls.length = BLOCK_CELLS

/-! ## Area unblock (geodata_tool.py `cmd_unblock`, app.py `api_unblock`)

Both implementations share the same loop body.  The multilayer branch
iterates `enumerate(block.get_layers(lx, ly))`, replacing each layer
whose cardinal nibble is not `0x0F` at its own index; since every write
lands at the index just read, that loop equals a per-layer map, with the
modification count the number of replaced layers. -/

/-- The per-cell rewrite: leave an already-cardinal-walkable cell alone,
otherwise force `nswe = 0xFF` keeping the height. -/
def unblockStep (c : Cell) : Cell :=
  if c.nswe &&& NSWE_ALL = NSWE_ALL then c else ⟨c.height, NSWE_ALL_L2D⟩

def setBlock (r : GeoRegion) (bx by' : Nat) (b : Block) : GeoRegion :=
  { r with blocks := r.blocks.set (bx * REGION_BLOCKS_Y + by') b }

/-- The loop body of `cmd_unblock` for one in-range cell `(x, y)`:
dispatch on the containing block, skip Flat, rewrite the cell (complex)
or every layer of its stack (multilayer) and add the number of modified
layers to the running count.  Out-of-range list accesses (impossible on
well-formed regions; `IndexError` in Python) leave the state unchanged. -/
def unblockCell (acc : GeoRegion × Nat) (x y : Nat) : GeoRegion × Nat :=
  let bx := x / BLOCK_CELLS_X
  let by' := y / BLOCK_CELLS_Y
  let lx := x % BLOCK_CELLS_X
  let ly := y % BLOCK_CELLS_Y
  match acc.1.get_block bx by' with
  | none => acc
  | some (.flat _) => acc
  | some (.complex cells) =>
    match cells.get? (lx * BLOCK_CELLS_Y + ly) with
    | none => acc
    | some old =>
      if old.nswe &&& NSWE_ALL ≠ NSWE_ALL then
        (setBlock acc.1 bx by'
          (.complex (cells.set (lx * BLOCK_CELLS_Y + ly) ⟨old.height, NSWE_ALL_L2D⟩)),
          acc.2 + 1)
      else acc
  | some (.multilayer cls) =>
    match cls.get? (lx * BLOCK_CELLS_Y + ly) with
    | none => acc
    | some stack =>
      (setBlock acc.1 bx by'
        (.multilayer (cls.set (lx * BLOCK_CELLS_Y + ly) (stack.map unblockStep))),
        acc.2 + (stack.filter (fun c => !(c.nswe &&& NSWE_ALL == NSWE_ALL))).length)

/-- `range(-radius, radius + 1)`. -/
def offsets (radius : Nat) : List Int :=
  (List.range (2 * radius + 1)).map (fun i : Nat => (i : Int) - radius)

/-- The `cmd_unblock` / `api_unblock` double loop: `dx, dy` over
`[-radius, radius]`, skipping coordinates outside `[0, 2048)`. -/
def cmd_unblock_loop (region : GeoRegion) (cx cy : Int) (radius : Nat) :
    GeoRegion × Nat :=
  (offsets radius).foldl (fun acc dx =>
    (offsets radius).foldl (fun acc dy =>
      let x := cx + dx
      let y := cy + dy
      if x < 0 ∨ y < 0 ∨ (REGION_CELLS_X : Int) ≤ x ∨ (REGION_CELLS_Y : Int) ≤ y
      then acc
      else unblockCell acc x.toNat y.toNat) acc) (region, 0)

/-- The in-range test of the loop, on a coordinate pair. -/
def inRangePair (p : Int × Int) : Prop :=
  0 ≤ p.1 ∧ p.1 < 2048 ∧ 0 ≤ p.2 ∧ p.2 < 2048

instance (p : Int × Int) : Decidable (inRangePair p) := by
  rw [inRangePair]
  infer_instance

/-- The visited coordinate pairs, row by row. -/
def visitList (cx cy : Int) (radius : Nat) : List (Int × Int) :=
  ((offsets radius).map (fun dx =>
    (offsets radius).map (fun dy => (cx + dx, cy + dy)))).flatten

/-- One visit as a fold step over coordinate pairs. -/
def visitStep (acc : GeoRegion × Nat) (p : Int × Int) : GeoRegion × Nat :=
  if p.1 < 0 ∨ p.2 < 0 ∨ (REGION_CELLS_X : Int) ≤ p.1 ∨ (REGION_CELLS_Y : Int) ≤ p.2
  then acc
  else unblockCell acc p.1.toNat p.2.toNat

/-- Layers of cell `(x, y)` whose cardinal nibble differs from `0x0F` —
the number of modifications a visit to `(x, y)` performs. -/
def cellModCount (r : GeoRegion) (x y : Nat) : Nat :=
  match r.get_layers x y with
  | none => 0
  | some stack => (stack.filter (fun c => !(c.nswe &&& NSWE_ALL == NSWE_ALL))).length

def pairModCount (r : GeoRegion) (p : Int × Int) : Nat :=
  if inRangePair p then cellModCount r p.1.toNat p.2.toNat else 0

/-- Shape invariant for unblock: 65 536 blocks, each well-formed. -/
def regionWF (r : GeoRegion) : Prop :=
  r.blocks.length = REGION_BLOCKS ∧ ∀ b ∈ r.blocks, blockWF b

/-- The spec's unblock scenario: block `(10, 10)` complex with 64 fully
blocked cells, every other block flat. -/
def c8Region : GeoRegion :=
  ⟨0, 0, List.replicate 2570 (Block.flat 0) ++
    Block.complex (List.replicate 64 ⟨0, 0⟩) :: List.replicate 62965 (Block.flat 0)⟩

/-! ## Round-trip lemmas for the codec -/

theorem encodeI16_decodeI16 {lo hi : Nat} (hlo : lo < 256) (hhi : hi < 256) :
    encodeI16 (decodeI16 lo hi) = [lo, hi] := by
  have h : decodeI16 lo hi = if ((lo : Int) + 256 * hi) < 32768 then (lo : Int) + 256 * hi
      else ((lo : Int) + 256 * hi) - 65536 := rfl
  unfold encodeI16
  rw [h]
  have hm : ((if ((lo : Int) + 256 * hi) < 32768 then (lo : Int) + 256 * hi
      else ((lo : Int) + 256 * hi) - 65536) % 65536).toNat = lo + 256 * hi := by
    by_cases hc : ((lo : Int) + 256 * hi) < 32768
    · rw [if_pos hc]; omega
    · rw [if_neg hc]; omega
  simp only [hm]
  have h1 : (lo + 256 * hi) % 256 = lo := by omega
  have h2 : (lo + 256 * hi) / 256 = hi := by omega
  rw [h1, h2]

theorem parseCells_length {n : Nat} {data : List Nat} {cs : List Cell} {rest : List Nat}
    (hp : parseCells n data = some (cs, rest)) : cs.length = n := by
  induction n generalizing data cs rest with
  | zero =>
    simp only [parseCells, Option.some.injEq, Prod.mk.injEq] at hp
    simp [← hp.1]
  | succ n ih =>
    match data with
    | [] => simp [parseCells] at hp
    | [a] => simp [parseCells] at hp
    | [a, b] => simp [parseCells] at hp
    | nswe :: lo :: hi :: rest0 =>
      simp only [parseCells] at hp
      cases hpc : parseCells n rest0 with
      | none => rw [hpc] at hp; simp at hp
      | some p =>
        rw [hpc] at hp
        simp only [Option.some.injEq, Prod.mk.injEq] at hp
        rcases hp with ⟨h1, _⟩
        subst h1
        simp [ih hpc]

theorem parseCells_append {n : Nat} {data : List Nat} {cs : List Cell} {rest : List Nat}
    (hp : parseCells n data = some (cs, rest)) (hb : ∀ b ∈ data, b < 256) :
    (cs.map writeCell).flatten ++ rest = data := by
  induction n generalizing data cs rest with
  | zero =>
    simp only [parseCells, Option.some.injEq, Prod.mk.injEq] at hp
    simp [← hp.1, ← hp.2]
  | succ n ih =>
    match data with
    | [] => simp [parseCells] at hp
    | [a] => simp [parseCells] at hp
    | [a, b] => simp [parseCells] at hp
    | nswe :: lo :: hi :: rest0 =>
      simp only [parseCells] at hp
      cases hpc : parseCells n rest0 with
      | none => rw [hpc] at hp; simp at hp
      | some p =>
        rw [hpc] at hp
        simp only [Option.some.injEq, Prod.mk.injEq] at hp
        rcases hp with ⟨h1, h2⟩
        subst h1; subst h2
        have hnswe : nswe < 256 := hb nswe (by simp)
        have hlo : lo < 256 := hb lo (by simp)
        have hhi : hi < 256 := hb hi (by simp)
        have htail := ih hpc (fun b hbm => hb b (by simp [hbm]))
        rw [List.map_cons, List.flatten_cons, List.append_assoc, htail]
        simp [writeCell, encodeI16_decodeI16 hlo hhi, Nat.mod_eq_of_lt hnswe]

theorem parseStacks_length {n : Nat} {data : List Nat} {ls : List (List Cell)}
    {rest : List Nat} (hp : parseStacks n data = some (ls, rest)) : ls.length = n := by
  induction n generalizing data ls rest with
  | zero =>
    simp only [parseStacks, Option.some.injEq, Prod.mk.injEq] at hp
    simp [← hp.1]
  | succ n ih =>
    match data with
    | [] => simp [parseStacks] at hp
    | cnt :: rest0 =>
      simp only [parseStacks] at hp
      cases hpc : parseCells cnt rest0 with
      | none => rw [hpc] at hp; simp at hp
      | some p =>
        obtain ⟨cs1, rest1⟩ := p
        rw [hpc] at hp
        simp only at hp
        cases hps : parseStacks n rest1 with
        | none => rw [hps] at hp; simp at hp
        | some q =>
          obtain ⟨ls1, rest2⟩ := q
          rw [hps] at hp
          simp only [Option.some.injEq, Prod.mk.injEq] at hp
          rcases hp with ⟨h1, _⟩
          subst h1
          simp [ih hps]

theorem parseStacks_append {n : Nat} {data : List Nat} {ls : List (List Cell)}
    {rest : List Nat} (hp : parseStacks n data = some (ls, rest))
    (hb : ∀ b ∈ data, b < 256) :
    (ls.map (fun layers => layers.length :: (layers.map writeCell).flatten)).flatten
      ++ rest = data := by
  induction n generalizing data ls rest with
  | zero =>
    simp only [parseStacks, Option.some.injEq, Prod.mk.injEq] at hp
    simp [← hp.1, ← hp.2]
  | succ n ih =>
    match data with
    | [] => simp [parseStacks] at hp
    | cnt :: rest0 =>
      simp only [parseStacks] at hp
      cases hpc : parseCells cnt rest0 with
      | none => rw [hpc] at hp; simp at hp
      | some p =>
        obtain ⟨cs1, rest1⟩ := p
        rw [hpc] at hp
        simp only at hp
        cases hps : parseStacks n rest1 with
        | none => rw [hps] at hp; simp at hp
        | some q =>
          obtain ⟨ls1, rest2⟩ := q
          rw [hps] at hp
          simp only [Option.some.injEq, Prod.mk.injEq] at hp
          rcases hp with ⟨h1, h2⟩
          subst h1; subst h2
          have hrest0 : ∀ b ∈ rest0, b < 256 := fun b hbm => hb b (by simp [hbm])
          have hcells := parseCells_append hpc hrest0
          have hmid : ∀ b ∈ rest1, b < 256 := by
            intro b hbm
            exact hrest0 b (by rw [← hcells]; simp [hbm])
          have htail := ih hps hmid
          have hlen := parseCells_length hpc
          rw [List.map_cons, List.flatten_cons, hlen]
          simp only [List.cons_append, List.append_assoc, htail, hcells]

theorem parseBlock_append {data : List Nat} {b : Block} {rest : List Nat}
    (hp : parseBlock data = some (b, rest)) (hb : ∀ x ∈ data, x < 256) :
    writeBlock b ++ rest = data := by
  match data with
  | [] => simp [parseBlock] at hp
  | t :: rest0 =>
    simp only [parseBlock] at hp
    by_cases hf : t = TYPE_FLAT
    · subst hf
      rw [if_pos rfl] at hp
      match rest0 with
      | [] => simp at hp
      | [a] => simp at hp
      | lo :: hi :: rest1 =>
        simp only [Option.some.injEq, Prod.mk.injEq] at hp
        rcases hp with ⟨h1, h2⟩
        subst h1; subst h2
        have hlo : lo < 256 := hb lo (by simp)
        have hhi : hi < 256 := hb hi (by simp)
        simp [writeBlock, encodeI16_decodeI16 hlo hhi]
    · rw [if_neg hf] at hp
      by_cases hc : t = TYPE_COMPLEX
      · subst hc
        rw [if_pos rfl] at hp
        cases hpc : parseCells BLOCK_CELLS rest0 with
        | none => rw [hpc] at hp; simp at hp
        | some p =>
          obtain ⟨cs, rest1⟩ := p
          rw [hpc] at hp
          simp only [Option.some.injEq, Prod.mk.injEq] at hp
          rcases hp with ⟨h1, h2⟩
          subst h1; subst h2
          have := parseCells_append hpc (fun x hx => hb x (by simp [hx]))
          simp [writeBlock, this]
      · rw [if_neg hc] at hp
        by_cases hm : t = TYPE_MULTILAYER
        · subst hm
          rw [if_pos rfl] at hp
          cases hps : parseStacks BLOCK_CELLS rest0 with
          | none => rw [hps] at hp; simp at hp
          | some p =>
            obtain ⟨ls, rest1⟩ := p
            rw [hps] at hp
            simp only [Option.some.injEq, Prod.mk.injEq] at hp
            rcases hp with ⟨h1, h2⟩
            subst h1; subst h2
            have := parseStacks_append hps (fun x hx => hb x (by simp [hx]))
            simp [writeBlock, this]
        · rw [if_neg hm] at hp
          simp at hp

theorem parseBlocks_length {n : Nat} {data : List Nat} {bs : List Block}
    {rest : List Nat} (hp : parseBlocks n data = some (bs, rest)) : bs.length = n := by
  induction n generalizing data bs rest with
  | zero =>
    simp only [parseBlocks, Option.some.injEq, Prod.mk.injEq] at hp
    simp [← hp.1]
  | succ n ih =>
    simp only [parseBlocks] at hp
    cases hpb : parseBlock data with
    | none => rw [hpb] at hp; simp at hp
    | some p =>
      obtain ⟨b, rest0⟩ := p
      rw [hpb] at hp
      simp only at hp
      cases hpr : parseBlocks n rest0 with
      | none => rw [hpr] at hp; simp at hp
      | some q =>
        obtain ⟨bs1, rest1⟩ := q
        rw [hpr] at hp
        simp only [Option.some.injEq, Prod.mk.injEq] at hp
        rcases hp with ⟨h1, _⟩
        subst h1
        simp [ih hpr]

theorem parseBlocks_append {n : Nat} {data : List Nat} {bs : List Block}
    {rest : List Nat} (hp : parseBlocks n data = some (bs, rest))
    (hb : ∀ x ∈ data, x < 256) : writeBlocks bs ++ rest = data := by
  induction n generalizing data bs rest with
  | zero =>
    simp only [parseBlocks, Option.some.injEq, Prod.mk.injEq] at hp
    simp [← hp.1, ← hp.2, writeBlocks]
  | succ n ih =>
    simp only [parseBlocks] at hp
    cases hpb : parseBlock data with
    | none => rw [hpb] at hp; simp at hp
    | some p =>
      obtain ⟨b, rest0⟩ := p
      rw [hpb] at hp
      simp only at hp
      cases hpr : parseBlocks n rest0 with
      | none => rw [hpr] at hp; simp at hp
      | some q =>
        obtain ⟨bs1, rest1⟩ := q
        rw [hpr] at hp
        simp only [Option.some.injEq, Prod.mk.injEq] at hp
        rcases hp with ⟨h1, h2⟩
        subst h1; subst h2
        have hblk := parseBlock_append hpb hb
        have hrest0 : ∀ x ∈ rest0, x < 256 := by
          intro x hx
          exact hb x (by rw [← hblk]; simp [hx])
        have htail := ih hpr hrest0
        rw [writeBlocks, List.map_cons, List.flatten_cons, List.append_assoc]
        rw [writeBlocks] at htail
        rw [htail, hblk]

/-! ## Concrete all-flat regions

The smallest well-formed L2D payload: 65 536 flat blocks of height 0,
`D0 00 00` each.  Used as concrete input for witnesses and
counterexamples. -/

def flatZeroBytes : List Nat := (List.replicate REGION_BLOCKS [0xD0, 0, 0]).flatten

theorem parseBlocks_replicate_flat (n : Nat) (rest : List Nat) :
    parseBlocks n ((List.replicate n [0xD0, 0, 0]).flatten ++ rest) =
      some (List.replicate n (Block.flat 0), rest) := by
  induction n with
  | zero => simp [parseBlocks]
  | succ n ih =>
    rw [List.replicate_succ, List.flatten_cons]
    have hblk : parseBlock ((0xD0 : Nat) :: 0 :: 0 ::
        ((List.replicate n [0xD0, 0, 0]).flatten ++ rest)) =
        some (Block.flat 0, (List.replicate n [0xD0, 0, 0]).flatten ++ rest) := by
      simp only [parseBlock, TYPE_FLAT, if_pos]
      norm_num [decodeI16]
    simp only [List.cons_append, List.nil_append, parseBlocks, hblk, ih,
      List.replicate_succ]

theorem flatZeroBytes_lt (x : Nat) (hx : x ∈ flatZeroBytes) : x < 256 := by
  rw [flatZeroBytes] at hx
  rcases List.mem_flatten.mp hx with ⟨l, hl, hxl⟩
  rcases List.eq_of_mem_replicate hl with rfl
  simp only [List.mem_cons, List.not_mem_nil, or_false] at hxl
  rcases hxl with rfl | rfl | rfl <;> norm_num

theorem writeBlocks_replicate_flat (n : Nat) :
    writeBlocks (List.replicate n (Block.flat 0)) =
      (List.replicate n [0xD0, 0, 0]).flatten := by
  induction n with
  | zero => simp [writeBlocks]
  | succ n ih =>
    rw [List.replicate_succ, List.replicate_succ, writeBlocks, List.map_cons,
      List.flatten_cons, List.flatten_cons, ← writeBlocks, ih]
    norm_num [writeBlock, encodeI16, TYPE_FLAT]

theorem parse_flatZeroBytes :
    parseBlocks REGION_BLOCKS flatZeroBytes =
      some (List.replicate REGION_BLOCKS (Block.flat 0), []) := by
  rw [flatZeroBytes]
  simpa using parseBlocks_replicate_flat REGION_BLOCKS []

/-! ## Well-formedness of parsed blocks -/

theorem parseBlock_wf {data : List Nat} {b : Block} {rest : List Nat}
    (hp : parseBlock data = some (b, rest)) : blockWF b := by
  match data with
  | [] => simp [parseBlock] at hp
  | t :: rest0 =>
    simp only [parseBlock] at hp
    by_cases hf : t = TYPE_FLAT
    · rw [if_pos hf] at hp
      match rest0 with
      | [] => simp at hp
      | [a] => simp at hp
      | lo :: hi :: rest1 =>
        simp only [Option.some.injEq, Prod.mk.injEq] at hp
        rw [← hp.1]
        trivial
    · rw [if_neg hf] at hp
      by_cases hc : t = TYPE_COMPLEX
      · rw [if_pos hc] at hp
        cases hpc : parseCells BLOCK_CELLS rest0 with
        | none => rw [hpc] at hp; simp at hp
        | some p =>
          obtain ⟨cs, rest1⟩ := p
          rw [hpc] at hp
          simp only [Option.some.injEq, Prod.mk.injEq] at hp
          rw [← hp.1]
          exact parseCells_length hpc
      · rw [if_neg hc] at hp
        by_cases hm : t = TYPE_MULTILAYER
        · rw [if_pos hm] at hp
          cases hps : parseStacks BLOCK_CELLS rest0 with
          | none => rw [hps] at hp; simp at hp
          | some p =>
            obtain ⟨ls, rest1⟩ := p
            rw [hps] at hp
            simp only [Option.some.injEq, Prod.mk.injEq] at hp
            rw [← hp.1]
            exact parseStacks_length hps
        · rw [if_neg hm] at hp
          simp at hp

theorem parseBlocks_wf {n : Nat} {data : List Nat} {bs : List Block} {rest : List Nat}
    (hp : parseBlocks n data = some (bs, rest)) : ∀ b ∈ bs, blockWF b := by
  induction n generalizing data bs rest with
  | zero =>
    simp only [parseBlocks, Option.some.injEq, Prod.mk.injEq] at hp
    rw [← hp.1]
    simp
  | succ n ih =>
    simp only [parseBlocks] at hp
    cases hpb : parseBlock data with
    | none => rw [hpb] at hp; simp at hp
    | some p =>
      obtain ⟨b, rest0⟩ := p
      rw [hpb] at hp
      simp only at hp
      cases hpr : parseBlocks n rest0 with
      | none => rw [hpr] at hp; simp at hp
      | some q =>
        obtain ⟨bs1, rest1⟩ := q
        rw [hpr] at hp
        simp only [Option.some.injEq, Prod.mk.injEq] at hp
        rw [← hp.1]
        intro x hx
        rcases List.mem_cons.mp hx with rfl | hx1
        · exact parseBlock_wf hpb
        · exact ih hpr x hx1

/-! ## Layer access on well-formed blocks (claim C9) -/

theorem block_layer_access {b : Block} (hwf : blockWF b)
    (hne : ∀ cls, b = Block.multilayer cls → ∀ s ∈ cls, s ≠ [])
    {lx ly : Nat} (hlx : lx < BLOCK_CELLS_X) (hly : ly < BLOCK_CELLS_Y) :
    (∃ l, b.get_layers lx ly = some l ∧ l ≠ []) ∧
      (∀ layer, (b.get_cell lx ly layer).isSome = true) ∧
      (∀ layer l, b.get_layers lx ly = some l → l.length ≤ layer →
        b.get_cell lx ly layer = b.get_cell lx ly 0) := by
  have hidx : lx * BLOCK_CELLS_Y + ly < BLOCK_CELLS := by
    simp only [BLOCK_CELLS_X, BLOCK_CELLS_Y, BLOCK_CELLS] at *
    omega
  cases b with
  | flat h =>
    refine ⟨⟨[⟨h, NSWE_ALL_L2D⟩], rfl, by simp⟩, fun _ => rfl, fun _ _ _ _ => rfl⟩
  | complex cells =>
    have hlen : lx * BLOCK_CELLS_Y + ly < cells.length := by
      rw [hwf]; exact hidx
    have hg := List.get?_eq_get hlen
    refine ⟨⟨[cells.get ⟨lx * BLOCK_CELLS_Y + ly, hlen⟩], ?_, by simp⟩,
      fun layer => ?_, fun _ _ _ _ => rfl⟩
    · rw [Block.get_layers, hg]
      rfl
    · rw [Block.get_cell, hg]
      rfl
  | multilayer cls =>
    have hlen : lx * BLOCK_CELLS_Y + ly < cls.length := by
      rw [hwf]; exact hidx
    have hg := List.get?_eq_get hlen
    have hs : cls.get ⟨lx * BLOCK_CELLS_Y + ly, hlen⟩ ≠ [] :=
      hne cls rfl _ (List.get_mem _ _ _)
    have hpos : 0 < (cls.get ⟨lx * BLOCK_CELLS_Y + ly, hlen⟩).length :=
      List.length_pos.mpr hs
    refine ⟨⟨cls.get ⟨lx * BLOCK_CELLS_Y + ly, hlen⟩, by rw [Block.get_layers, hg], hs⟩,
      fun layer => ?_, ?_⟩
    · simp only [Block.get_cell, hg]
      by_cases hl : layer < (cls.get ⟨lx * BLOCK_CELLS_Y + ly, hlen⟩).length
      · rw [if_pos hl, List.get?_eq_get hl]
        rfl
      · rw [if_neg hl, ← List.get?_zero, List.get?_eq_get hpos]
        rfl
    · intro layer l hl hlel
      simp only [Block.get_layers, hg, Option.some.injEq] at hl
      subst hl
      simp only [Block.get_cell, hg]
      rw [if_neg (by omega), if_pos hpos, List.get?_zero]

/-- C9 counterexample input: a multilayer block whose 64 cells all carry
`layer_count = 0`, followed by 65 535 flat blocks. -/
def c9Bytes : List Nat :=
  0xD2 :: (List.replicate 64 0 ++ (List.replicate 65535 [0xD0, 0, 0]).flatten)

/-- The region `parse_l2d` builds from `c9Bytes`. -/
def c9Region : GeoRegion :=
  ⟨0, 0, Block.multilayer (List.replicate 64 []) :: List.replicate 65535 (Block.flat 0)⟩

theorem parseStacks_replicate_zero (n : Nat) (rest : List Nat) :
    parseStacks n (List.replicate n 0 ++ rest) = some (List.replicate n [], rest) := by
  induction n with
  | zero => simp [parseStacks]
  | succ n ih =>
    rw [List.replicate_succ, List.cons_append]
    simp only [parseStacks, parseCells, ih, List.replicate_succ]

theorem parseBlock_c9 (rest : List Nat) :
    parseBlock ((0xD2 : Nat) :: (List.replicate 64 0 ++ rest)) =
      some (Block.multilayer (List.replicate 64 []), rest) := by
  simp only [parseBlock]
  norm_num [TYPE_FLAT, TYPE_COMPLEX, TYPE_MULTILAYER, BLOCK_CELLS,
    BLOCK_CELLS_X, BLOCK_CELLS_Y, parseStacks_replicate_zero]

theorem parseBlocks_succ_of {n : Nat} {data : List Nat} {b : Block} {rest : List Nat}
    (hb : parseBlock data = some (b, rest)) {bs : List Block} {rest' : List Nat}
    (hr : parseBlocks n rest = some (bs, rest')) :
    parseBlocks (n + 1) data = some (b :: bs, rest') := by
  simp only [parseBlocks, hb, hr]

theorem parse_c9Bytes : parse_l2d 0 0 c9Bytes = some c9Region := by
  have hpb : parseBlock c9Bytes =
      some (Block.multilayer (List.replicate 64 []),
        (List.replicate 65535 [0xD0, 0, 0]).flatten) := by
    rw [c9Bytes]
    exact parseBlock_c9 _
  have h2 := parseBlocks_replicate_flat 65535 []
  rw [List.append_nil] at h2
  have h1 := parseBlocks_succ_of hpb h2
  rw [parse_l2d, show REGION_BLOCKS = 65535 + 1 from rfl, h1]
  rfl

theorem get_block_of_len {r : GeoRegion} (hlen : r.blocks.length = REGION_BLOCKS)
    {cx cy : Nat} (hcx : cx < 2048) (hcy : cy < 2048) :
    ∃ b, r.get_block (cx / BLOCK_CELLS_X) (cy / BLOCK_CELLS_Y) = some b ∧
      b ∈ r.blocks := by
  have hidx : (cx / BLOCK_CELLS_X) * REGION_BLOCKS_Y + cy / BLOCK_CELLS_Y <
      r.blocks.length := by
    rw [hlen]
    simp only [BLOCK_CELLS_X, BLOCK_CELLS_Y, REGION_BLOCKS_Y, REGION_BLOCKS,
      REGION_BLOCKS_X]
    omega
  exact ⟨_, by rw [GeoRegion.get_block]; exact List.get?_eq_get hidx,
    List.get_mem _ _ _⟩

/-- C9 counterexample.  `parse_l2d` accepts a region whose first block is
multilayer with `layer_count = 0` for every cell; on that parsed region
`get_layers (0, 0)` is the empty list (not "at least one cell") and
`get_cell (0, 0, layer := 99)` faults (modelled `none`) instead of
falling back to a layer-0 cell. -/
theorem c9_counterexample :
    parse_l2d 0 0 c9Bytes = some c9Region ∧
      c9Region.get_layers 0 0 = some [] ∧
      c9Region.get_cell 0 0 99 = none := by
  refine ⟨parse_c9Bytes, rfl, rfl⟩

/-- C9 (amended).  On every region produced by `parse_l2d` all of whose
multilayer cell stacks are non-empty (true of well-formed L2D files,
not enforced by the parser), layer access is total for in-range cells:
`get_layers` returns a non-empty list, `get_cell` returns a cell for
every layer index, and an index beyond the stack falls back to the
layer-0 cell. -/
theorem c9_layer_access_total (rx ry : Int) (F : List Nat) (r : GeoRegion)
    (hp : parse_l2d rx ry F = some r)
    (hne : ∀ cls, Block.multilayer cls ∈ r.blocks → ∀ s ∈ cls, s ≠ [])
    (cx cy : Nat) (hcx : cx < 2048) (hcy : cy < 2048) :
    (∃ l, r.get_layers cx cy = some l ∧ l ≠ []) ∧
      (∀ layer, (r.get_cell cx cy layer).isSome = true) ∧
      (∀ layer l, r.get_layers cx cy = some l → l.length ≤ layer →
        r.get_cell cx cy layer = r.get_cell cx cy 0) := by
  rw [parse_l2d] at hp
  rcases hq : parseBlocks REGION_BLOCKS F with _ | ⟨bs, rest⟩
  · rw [hq] at hp; simp at hp
  · rw [hq] at hp
    simp only [Option.some.injEq] at hp
    subst hp
    have hlen : (⟨rx, ry, bs⟩ : GeoRegion).blocks.length = REGION_BLOCKS :=
      parseBlocks_length hq
    have hwf : ∀ b ∈ bs, blockWF b := parseBlocks_wf hq
    obtain ⟨b, hgb, hbm⟩ := get_block_of_len hlen hcx hcy
    have hlx : cx % BLOCK_CELLS_X < BLOCK_CELLS_X :=
      Nat.mod_lt _ (by norm_num [BLOCK_CELLS_X])
    have hly : cy % BLOCK_CELLS_Y < BLOCK_CELLS_Y :=
      Nat.mod_lt _ (by norm_num [BLOCK_CELLS_Y])
    have hblk := block_layer_access (hwf b hbm)
      (fun cls hcls => hne cls (hcls ▸ hbm)) hlx hly
    have hgl : (⟨rx, ry, bs⟩ : GeoRegion).get_layers cx cy =
        b.get_layers (cx % BLOCK_CELLS_X) (cy % BLOCK_CELLS_Y) := by
      rw [GeoRegion.get_layers, hgb]
    have hgc : ∀ layer, (⟨rx, ry, bs⟩ : GeoRegion).get_cell cx cy layer =
        b.get_cell (cx % BLOCK_CELLS_X) (cy % BLOCK_CELLS_Y) layer := by
      intro layer
      rw [GeoRegion.get_cell, hgb]
    refine ⟨?_, ?_, ?_⟩
    · rw [hgl]; exact hblk.1
    · intro layer; rw [hgc]; exact hblk.2.1 layer
    · intro layer l hl hlel
      rw [hgc, hgc]
      exact hblk.2.2 layer l (by rw [← hgl]; exact hl) hlel

/-- Witness for C9 at the all-flat region file and cell `(0, 0)`. -/
theorem c9_layer_access_total_witness :
    ∃ l, (GeoRegion.mk 0 0 (List.replicate REGION_BLOCKS (Block.flat 0))).get_layers
      0 0 = some l ∧ l ≠ [] :=
  (c9_layer_access_total 0 0 flatZeroBytes
    ⟨0, 0, List.replicate REGION_BLOCKS (Block.flat 0)⟩
    (by rw [parse_l2d, parse_flatZeroBytes])
    (fun cls hmem => by
      have h := List.eq_of_mem_replicate hmem
      simp at h)
    0 0 (by norm_num) (by norm_num)).1

/-! ## Game cipher lemmas (claim C2) -/

theorem getD_lt_256 {key : List Nat} (hk : ∀ k ∈ key, k < 256) (n : Nat) :
    key.getD n 0 < 256 := by
  rw [List.getD_eq_getElem?_getD]
  cases hg : key[n]? with
  | none => simp [hg]
  | some v =>
    simp only [hg, Option.getD_some]
    exact hk v (List.getElem?_mem hg)

theorem xor_lt_256 {a b : Nat} (ha : a < 256) (hb : b < 256) :
    a ^^^ b < 256 := by
  have h := Nat.xor_lt_two_pow (n := 8) (by simpa using ha) (by simpa using hb)
  simpa using h

theorem xor_unroll (p k t : Nat) :
    (((p ^^^ k) ^^^ t) ^^^ k) ^^^ t = p := by
  rw [Nat.xor_assoc (p ^^^ k) t k, Nat.xor_comm t k,
    ← Nat.xor_assoc (p ^^^ k) k t, Nat.xor_cancel_right, Nat.xor_cancel_right]

theorem encryptBytes_length (key : List Nat) :
    ∀ (ps : List Nat) (i temp : Nat),
      (GameCrypt.encryptBytes key i temp ps).length = ps.length := by
  intro ps
  induction ps with
  | nil => intro i temp; rfl
  | cons p rest ih =>
    intro i temp
    simp only [GameCrypt.encryptBytes, List.length_cons, ih]

theorem decryptBytes_encryptBytes {key : List Nat} (hk : ∀ k ∈ key, k < 256) :
    ∀ (ps : List Nat) (i temp : Nat), (∀ b ∈ ps, b < 256) → temp < 256 →
      GameCrypt.decryptBytes key i temp (GameCrypt.encryptBytes key i temp ps) = ps := by
  intro ps
  induction ps with
  | nil => intro i temp _ _; rfl
  | cons p rest ih =>
    intro i temp hb ht
    have hp : p < 256 := hb p (by simp)
    have hkk : key.getD (i % 16) 0 < 256 := getD_lt_256 hk _
    have hpm : p % 256 = p := Nat.mod_eq_of_lt hp
    have htlt : (p ^^^ key.getD (i % 16) 0) ^^^ temp < 256 :=
      xor_lt_256 (xor_lt_256 hp hkk) ht
    have htm : ((p ^^^ key.getD (i % 16) 0) ^^^ temp) % 256 =
        (p ^^^ key.getD (i % 16) 0) ^^^ temp := Nat.mod_eq_of_lt htlt
    simp only [GameCrypt.encryptBytes, GameCrypt.decryptBytes, hpm, htm]
    congr 1
    · rw [xor_unroll p (key.getD (i % 16) 0) temp]
      exact hpm
    · exact ih (i + 1) _ (fun b hbm => hb b (by simp [hbm])) htlt

theorem packU32_length (data : List Nat) (p v : Nat) :
    (packU32 data p v).length = data.length := by
  simp [packU32]

theorem packU32_bytes {data : List Nat} (hk : ∀ b ∈ data, b < 256) (p v : Nat) :
    ∀ b ∈ packU32 data p v, b < 256 := by
  intro b hb
  rw [packU32] at hb
  rcases List.mem_or_eq_of_mem_set hb with hb | rfl
  · rcases List.mem_or_eq_of_mem_set hb with hb | rfl
    · rcases List.mem_or_eq_of_mem_set hb with hb | rfl
      · rcases List.mem_or_eq_of_mem_set hb with hb | rfl
        · exact hk b hb
        · omega
      · omega
    · omega
  · omega

theorem packU32_getD_lo {data : List Nat} (p v : Nat) {i : Nat} (hi : i < p) :
    (packU32 data p v).getD i 0 = data.getD i 0 := by
  rw [packU32, List.getD_eq_getElem?_getD,
    List.getElem?_set_ne (by omega), List.getElem?_set_ne (by omega),
    List.getElem?_set_ne (by omega), List.getElem?_set_ne (by omega),
    ← List.getD_eq_getElem?_getD]

theorem u32At_packU32 {data : List Nat} {p : Nat} (hp : p + 3 < data.length)
    {v : Nat} (hv : v < 4294967296) : u32At (packU32 data p v) p = v := by
  have h0 : (packU32 data p v).getD p 0 = v % 256 := by
    rw [packU32, List.getD_eq_getElem?_getD,
      List.getElem?_set_ne (by omega), List.getElem?_set_ne (by omega),
      List.getElem?_set_ne (by omega), List.getElem?_set_self (by omega)]
    rfl
  have h1 : (packU32 data p v).getD (p + 1) 0 = v / 256 % 256 := by
    rw [packU32, List.getD_eq_getElem?_getD,
      List.getElem?_set_ne (by omega), List.getElem?_set_ne (by omega),
      List.getElem?_set_self (by simp only [List.length_set]; omega)]
    rfl
  have h2 : (packU32 data p v).getD (p + 2) 0 = v / 65536 % 256 := by
    rw [packU32, List.getD_eq_getElem?_getD,
      List.getElem?_set_ne (by omega),
      List.getElem?_set_self (by simp only [List.length_set]; omega)]
    rfl
  have h3 : (packU32 data p v).getD (p + 3) 0 = v / 16777216 % 256 := by
    rw [packU32, List.getD_eq_getElem?_getD,
      List.getElem?_set_self (by simp only [List.length_set]; omega)]
    rfl
  rw [u32At, h0, h1, h2, h3]
  omega

theorem setCounter_length (key : List Nat) (v : Nat) :
    (GameCrypt.setCounter key v).length = key.length := by
  simp [GameCrypt.setCounter, packU32]

theorem setCounter_bytes {key : List Nat} (hk : ∀ k ∈ key, k < 256) (v : Nat) :
    ∀ b ∈ GameCrypt.setCounter key v, b < 256 :=
  packU32_bytes hk 8 v

theorem keyCounter_setCounter {key : List Nat} (hlen : key.length = 16) {v : Nat}
    (hv : v < 4294967296) : GameCrypt.keyCounter (GameCrypt.setCounter key v) = v := by
  rw [GameCrypt.keyCounter, GameCrypt.setCounter]
  exact u32At_packU32 (by omega) hv

theorem advance_key_counter {key : List Nat} (hlen : key.length = 16) (n : Nat) :
    GameCrypt.keyCounter (GameCrypt._advance_key key n) =
      (GameCrypt.keyCounter key + n) % 4294967296 := by
  rw [GameCrypt._advance_key, keyCounter_setCounter hlen (Nat.mod_lt _ (by norm_num))]

theorem exchange_step {srv cli : GameCrypt} (h : synced srv cli) {p : List Nat}
    (hp : ∀ b ∈ p, b < 256) :
    (cli.decrypt (srv.encrypt p).2).2 = p ∧
      synced (srv.encrypt p).1 (cli.decrypt (srv.encrypt p).2).1 ∧
      GameCrypt.keyCounter (srv.encrypt p).1.out_key =
        (GameCrypt.keyCounter srv.out_key + p.length) % 4294967296 ∧
      GameCrypt.keyCounter (cli.decrypt (srv.encrypt p).2).1.in_key =
        (GameCrypt.keyCounter cli.in_key + p.length) % 4294967296 := by
  obtain ⟨hse, hce, hkeys, hlen, hbytes⟩ := h
  simp only [GameCrypt.encrypt, GameCrypt.decrypt, hse, hce, if_true]
  refine ⟨?_, ⟨rfl, rfl, ?_, ?_, ?_⟩, ?_, ?_⟩
  · rw [hkeys]
    exact decryptBytes_encryptBytes hbytes p 0 0 hp (by norm_num)
  · simp only [GameCrypt._advance_key, hkeys,
      encryptBytes_length cli.in_key p 0 0]
  · simp [GameCrypt._advance_key, setCounter_length, hlen]
  · exact setCounter_bytes hbytes _
  · exact advance_key_counter (by rw [hkeys]; exact hlen) _
  · rw [advance_key_counter hlen, hkeys, encryptBytes_length]

theorem exchange_recovers {srv cli : GameCrypt} (h : synced srv cli) :
    ∀ {pkts : List (List Nat)}, (∀ p ∈ pkts, ∀ b ∈ p, b < 256) →
      (exchange srv cli pkts).1 = pkts := by
  intro pkts
  induction pkts generalizing srv cli with
  | nil => intro _; rfl
  | cons p ps ih =>
    intro hp
    obtain ⟨hrec, hsync, _, _⟩ := exchange_step h (hp p (by simp))
    simp only [exchange, hrec, List.cons.injEq, true_and]
    exact ih hsync (fun q hq => hp q (by simp [hq]))

/-- C2.  Two game cipher instances share a 16-byte key.  The encrypting
side's first call passes the data through unchanged, sets the enabled
flag and leaves the key (hence the counter) untouched.  Once both sides
are past their first-encrypt passthrough, every packet the one side
encrypts is recovered exactly by the other side's decrypt, and after
each processed buffer both key counters (bytes 8–11, little-endian u32)
have advanced by the buffer length, staying equal throughout. -/
theorem c2_game_cipher (key : List Nat) (hlen : key.length = 16)
    (hk : ∀ b ∈ key, b < 256) (handshake : List Nat)
    (pkts : List (List Nat)) (hp : ∀ p ∈ pkts, ∀ b ∈ p, b < 256) :
    GameCrypt.encrypt (GameCrypt.init key) handshake =
        ({ GameCrypt.init key with enabled := true }, handshake) ∧
      (exchange { GameCrypt.init key with enabled := true }
        { GameCrypt.init key with enabled := true } pkts).1 = pkts ∧
      (∀ (srv cli : GameCrypt) (p : List Nat), synced srv cli → (∀ b ∈ p, b < 256) →
        (cli.decrypt (srv.encrypt p).2).2 = p ∧
          (srv.encrypt p).1.out_key = (cli.decrypt (srv.encrypt p).2).1.in_key ∧
          GameCrypt.keyCounter (srv.encrypt p).1.out_key =
            (GameCrypt.keyCounter srv.out_key + p.length) % 4294967296 ∧
          GameCrypt.keyCounter (cli.decrypt (srv.encrypt p).2).1.in_key =
            (GameCrypt.keyCounter cli.in_key + p.length) % 4294967296) := by
  refine ⟨rfl, ?_, ?_⟩
  · exact exchange_recovers ⟨rfl, rfl, rfl, hlen, hk⟩ hp
  · intro srv cli p hs hpb
    obtain ⟨h1, h2, h3, h4⟩ := exchange_step hs hpb
    exact ⟨h1, h2.2.2.1.symm ▸ rfl, h3, h4⟩

/-- Witness for C2 at a concrete 16-byte key and two packets. -/
theorem c2_game_cipher_witness :
    (exchange { GameCrypt.init (List.range 16) with enabled := true }
      { GameCrypt.init (List.range 16) with enabled := true }
      [[1, 2, 3], [250, 0, 77, 130]]).1 = [[1, 2, 3], [250, 0, 77, 130]] :=
  (c2_game_cipher (List.range 16) (by decide) (by decide) []
    [[1, 2, 3], [250, 0, 77, 130]] (by decide)).2.1

/-! ## Login frame theorems (claim C5) -/

theorem total_pad_eq (L : Nat) :
    (if (L + ((if L % 8 ≠ 0 then 8 - L % 8 else 0) + 4)) % 8 ≠ 0 then
        ((if L % 8 ≠ 0 then 8 - L % 8 else 0) + 4) +
          (8 - (L + ((if L % 8 ≠ 0 then 8 - L % 8 else 0) + 4)) % 8)
      else ((if L % 8 ≠ 0 then 8 - L % 8 else 0) + 4)) =
      8 * ((L + 7) / 8) + 8 - L := by
  split_ifs <;> omega

theorem loginEncryptBody_eq (data : List Nat) :
    loginEncryptBody data = append_checksum (data ++
      List.replicate (8 * ((data.length + 7) / 8) + 8 - data.length) 0) := by
  simp only [loginEncryptBody]
  rw [total_pad_eq]

theorem append_checksum_length (data : List Nat) :
    (append_checksum data).length = data.length := by
  simp [append_checksum, packU32]

theorem loginEncryptBody_length (data : List Nat) :
    (loginEncryptBody data).length = 8 * ((data.length + 7) / 8) + 8 := by
  rw [loginEncryptBody_eq, append_checksum_length]
  simp only [List.length_append, List.length_replicate]
  omega

theorem append_checksum_getD_lo (data : List Nat) {i : Nat}
    (hi : i < data.length - 4) :
    (append_checksum data).getD i 0 = data.getD i 0 := by
  rw [append_checksum]
  exact packU32_getD_lo _ _ (by omega)

theorem append_checksum_u32 (data : List Nat) (h8 : 8 ≤ data.length) :
    u32At (append_checksum data) (data.length - 4) =
      xorWords data 0 ((data.length - 4 + 3) / 4) % 4294967296 := by
  rw [append_checksum]
  exact u32At_packU32 (by omega) (Nat.mod_lt _ (by norm_num))

/-- C5 counterexample.  For a 4-byte payload the claim's body length —
the smallest multiple of 8 that is at least 4 + 4, i.e. 8 — does not
match the code, which pads a 4-byte payload to a 16-byte body. -/
theorem c5_counterexample :
    (loginEncryptBody [1, 2, 3, 4]).length = 16 ∧
      8 % 8 = 0 ∧ 4 + 4 ≤ 8 ∧ (loginEncryptBody [1, 2, 3, 4]).length ≠ 8 := by
  refine ⟨?_, by norm_num, by norm_num, ?_⟩
  · rw [loginEncryptBody_length]
    norm_num
  · rw [loginEncryptBody_length]
    norm_num

/-- C5 (amended).  The encrypted login frame body is built by appending
zero bytes to the payload (4 for the checksum plus zero padding, the
code's arithmetic always landing on `8·⌈L/8⌉ + 8` bytes — not the
smallest multiple of 8 that is at least `L + 4`), writing the XOR
checksum of the preceding words into the last 4 bytes, and
Blowfish-encrypting the whole body with the dynamic key. -/
theorem c5_login_frame (bfBlock : List Nat → List Nat) (data : List Nat) :
    LoginCrypt_encrypt bfBlock data =
        l2bfProcess bfBlock (append_checksum (data ++
          List.replicate (8 * ((data.length + 7) / 8) + 8 - data.length) 0)) ∧
      (loginEncryptBody data).length = 8 * ((data.length + 7) / 8) + 8 ∧
      (∀ i, i < (loginEncryptBody data).length - 4 →
        (loginEncryptBody data).getD i 0 =
          (data ++ List.replicate
            (8 * ((data.length + 7) / 8) + 8 - data.length) 0).getD i 0) ∧
      u32At (loginEncryptBody data) ((loginEncryptBody data).length - 4) =
        xorWords (data ++ List.replicate
            (8 * ((data.length + 7) / 8) + 8 - data.length) 0) 0
          (((loginEncryptBody data).length - 4 + 3) / 4) % 4294967296 := by
  have hlenp : (data ++ List.replicate
      (8 * ((data.length + 7) / 8) + 8 - data.length) 0).length =
      8 * ((data.length + 7) / 8) + 8 := by
    simp only [List.length_append, List.length_replicate]
    omega
  refine ⟨by rw [LoginCrypt_encrypt, loginEncryptBody_eq],
    loginEncryptBody_length data, ?_, ?_⟩
  · intro i hi
    rw [loginEncryptBody_length] at hi
    rw [loginEncryptBody_eq]
    exact append_checksum_getD_lo _ (by rw [hlenp]; omega)
  · rw [loginEncryptBody_eq, append_checksum_length]
    exact append_checksum_u32 _ (by rw [hlenp]; omega)

/-- Witness for C5 at a concrete 4-byte payload. -/
theorem c5_login_frame_witness :
    (loginEncryptBody [9, 9, 9, 9]).length =
      8 * ((([9, 9, 9, 9] : List Nat).length + 7) / 8) + 8 :=
  (c5_login_frame id [9, 9, 9, 9]).2.1

/-! ## Scan region materialisation theorems (claim C10) -/

theorem flatten_grid_length {α : Type} (k : Nat) :
    ∀ (m : Nat) (g : Nat → Nat → α),
      (((List.range m).map (fun a => (List.range k).map (g a))).flatten).length =
        m * k := by
  intro m
  induction m with
  | zero => intro g; simp
  | succ m ih =>
    intro g
    rw [List.range_succ_eq_map, List.map_cons, List.flatten_cons, List.map_map,
      List.length_append, List.length_map, List.length_range]
    have hcomp : List.map ((fun a => (List.range k).map (g a)) ∘ Nat.succ)
        (List.range m) =
        List.map (fun a => (List.range k).map (g (a + 1))) (List.range m) := rfl
    rw [hcomp, ih (fun a => g (a + 1))]
    ring

theorem flatten_grid_get? {α : Type} (k : Nat) :
    ∀ (i : Nat) (g : Nat → Nat → α) (m j : Nat), i < m → j < k →
      (((List.range m).map (fun a => (List.range k).map (g a))).flatten).get?
        (i * k + j) = some (g i j) := by
  intro i
  induction i with
  | zero =>
    intro g m j him hjk
    match m, him with
    | m + 1, _ =>
      rw [List.range_succ_eq_map]
      simp only [List.map_cons, List.flatten_cons]
      have hjlen : j < ((List.range k).map (g 0)).length := by simpa using hjk
      rw [Nat.zero_mul, Nat.zero_add, List.get?_append hjlen, List.get?_map,
        List.get?_eq_getElem?, List.getElem?_range hjk]
      rfl
  | succ i ih =>
    intro g m j him hjk
    match m, him with
    | m + 1, him =>
      rw [List.range_succ_eq_map]
      simp only [List.map_cons, List.flatten_cons, List.map_map]
      have hlen : ((List.range k).map (g 0)).length = k := by simp
      have hge : ((List.range k).map (g 0)).length ≤ (i + 1) * k + j := by
        rw [hlen, Nat.succ_mul]
        omega
      rw [List.get?_append_right hge]
      have harith : (i + 1) * k + j - ((List.range k).map (g 0)).length =
          i * k + j := by
        rw [hlen, Nat.succ_mul]
        omega
      rw [harith]
      have hcomp : List.map ((fun a => (List.range k).map (g a)) ∘ Nat.succ)
          (List.range m) =
          List.map (fun a => (List.range k).map (g (a + 1))) (List.range m) := rfl
      rw [hcomp]
      exact ih (fun a => g (a + 1)) m j (by omega) hjk

/-- C10.  `_build_region` materialises exactly 65 536 flat blocks
carrying only the scanned heights: the result does not depend on the
scanned NSWE map at all, block `(bx, by)` is `Flat` with the scanned
height (default 0), and every cell of the region reports `nswe = 0xFF`
regardless of what the server returned. -/
theorem c10_build_region (rx ry : Int) (heights : Nat × Nat → Option Int)
    (n1 n2 : Nat × Nat → Option Nat) :
    _build_region rx ry heights n1 = _build_region rx ry heights n2 ∧
      (_build_region rx ry heights n1).blocks.length = REGION_BLOCKS ∧
      (∀ bx by', bx < 256 → by' < 256 →
        (_build_region rx ry heights n1).get_block bx by' =
          some (Block.flat ((heights (bx, by')).getD 0))) ∧
      (∀ cx cy layer, cx < 2048 → cy < 2048 →
        (_build_region rx ry heights n1).get_cell cx cy layer =
          some ⟨(heights (cx / 8, cy / 8)).getD 0, NSWE_ALL_L2D⟩) := by
  have hblock : ∀ bx by', bx < 256 → by' < 256 →
      (_build_region rx ry heights n1).get_block bx by' =
        some (Block.flat ((heights (bx, by')).getD 0)) := by
    intro bx by' hbx hby
    rw [_build_region, GeoRegion.get_block]
    simp only
    rw [show REGION_BLOCKS_Y = 256 from rfl]
    exact flatten_grid_get? 256 bx (fun a b => Block.flat ((heights (a, b)).getD 0))
      REGION_BLOCKS_X by' (by simpa [REGION_BLOCKS_X] using hbx) hby
  refine ⟨rfl, ?_, hblock, ?_⟩
  · rw [_build_region]
    simp only
    rw [flatten_grid_length]
    rfl
  · intro cx cy layer hcx hcy
    rw [GeoRegion.get_cell]
    rw [show BLOCK_CELLS_X = 8 from rfl, show BLOCK_CELLS_Y = 8 from rfl]
    rw [hblock (cx / 8) (cy / 8) (by omega) (by omega)]
    rfl

/-- Witness for C10 at concrete height and NSWE maps. -/
theorem c10_build_region_witness :
    (_build_region 0 0 (fun _ => some (-42)) (fun _ => some 0)).blocks.length =
      REGION_BLOCKS :=
  (c10_build_region 0 0 (fun _ => some (-42)) (fun _ => some 0) (fun _ => none)).2.1

/-! ## Registry lemmas (claim C3) -/

theorem lookupRegion_mem {regs : Registry} {k : String} {r : RegionState}
    (h : lookupRegion regs k = some r) : (k, r) ∈ regs := by
  rw [lookupRegion] at h
  cases hf : regs.find? (fun p => p.1 == k) with
  | none => rw [hf] at h; simp at h
  | some p =>
    rw [hf] at h
    simp only [Option.map_some', Option.some.injEq] at h
    have hp := List.find?_some hf
    have hm := List.mem_of_find?_eq_some hf
    have hk : p.1 = k := by simpa using hp
    rw [← h, ← hk]
    exact hm

theorem lookupRegion_of_mem {regs : Registry} (hnd : (regs.map Prod.fst).Nodup)
    {k : String} {r : RegionState} (hm : (k, r) ∈ regs) :
    lookupRegion regs k = some r := by
  induction regs with
  | nil => cases hm
  | cons p rest ih =>
    rw [List.map_cons, List.nodup_cons] at hnd
    rcases List.mem_cons.mp hm with rfl | hm2
    · simp [lookupRegion, List.find?]
    · have hne : (p.1 == k) = false := by
        rw [beq_eq_false_iff_ne]
        intro he
        exact hnd.1 (he ▸ List.mem_map.mpr ⟨(k, r), hm2, rfl⟩)
      simp only [lookupRegion, List.find?, hne, cond_false]
      exact ih hnd.2 hm2

theorem setRegion_keys (regs : Registry) (k : String) (r : RegionState) :
    (setRegion regs k r).map Prod.fst = regs.map Prod.fst := by
  rw [setRegion, List.map_map]
  apply List.map_congr_left
  intro p _
  by_cases h : p.1 = k <;> simp [h]

theorem lookupRegion_setRegion_ne {regs : Registry} {k k2 : String}
    {r : RegionState} (h : k2 ≠ k) :
    lookupRegion (setRegion regs k r) k2 = lookupRegion regs k2 := by
  induction regs with
  | nil => rfl
  | cons p rest ih =>
    simp only [setRegion, List.map_cons] at *
    by_cases hp : (p.1 == k) = true
    · rw [if_pos hp]
      have hpk : p.1 = k := by simpa using hp
      have hne2 : (p.1 == k2) = false := by
        rw [beq_eq_false_iff_ne, hpk]
        exact Ne.symm h
      simp only [lookupRegion, List.find?, hne2, cond_false]
      exact ih
    · rw [if_neg hp]
      by_cases hq : (p.1 == k2) = true
      · simp only [lookupRegion, List.find?, hq, cond_true]
      · simp only [lookupRegion, List.find?, hq, cond_false]
        exact ih

theorem lookupRegion_setRegion_self {regs : Registry} {k : String}
    {r0 : RegionState} (hl : lookupRegion regs k = some r0) (r : RegionState) :
    lookupRegion (setRegion regs k r) k = some r := by
  induction regs with
  | nil => simp [lookupRegion] at hl
  | cons p rest ih =>
    by_cases hp : (p.1 == k) = true
    · simp only [setRegion, List.map_cons, if_pos hp]
      simp only [lookupRegion, List.find?, hp, cond_true, Option.map_some']
    · simp only [setRegion, List.map_cons, if_neg hp] at *
      simp only [lookupRegion, List.find?, hp, cond_false] at hl ⊢
      exact ih hl

theorem pendingCount_set_nonpending {regs : Registry} :
    (regs.map Prod.fst).Nodup → ∀ {k : String} {r0 : RegionState},
      lookupRegion regs k = some r0 → r0.status = RegionStatus.pending →
      ∀ {r : RegionState}, r.status ≠ RegionStatus.pending →
      pendingCount (setRegion regs k r) + 1 = pendingCount regs := by
  induction regs with
  | nil => intro _ k r0 hl; simp [lookupRegion] at hl
  | cons p rest ih =>
    intro hnd k r0 hl hp0 r hr
    rw [List.map_cons, List.nodup_cons] at hnd
    by_cases hpk : (p.1 == k) = true
    · simp only [lookupRegion, List.find?, hpk, cond_true, Option.map_some',
        Option.some.injEq] at hl
      have hk : p.1 = k := by simpa using hpk
      have hrest : rest.map (fun q => if q.1 == k then (q.1, r) else q) = rest := by
        conv_rhs => rw [← List.map_id rest]
        apply List.map_congr_left
        intro q hq
        have hne : ¬ (q.1 = k) := by
          intro he
          refine hnd.1 ?_
          rw [hk, ← he]
          exact List.mem_map.mpr ⟨q, hq, rfl⟩
        simp [hne]
      have h1 : (r.status == RegionStatus.pending) = false := by simpa using hr
      have h2 : (p.2.status == RegionStatus.pending) = true := by
        simp [hl, hp0]
      simp only [setRegion, List.map_cons, if_pos hpk, hrest, pendingCount,
        List.filter_cons, h1, h2]
      simp
    · simp only [lookupRegion, List.find?, hpk, cond_false] at hl
      have hrec := ih hnd.2 hl hp0 hr
      simp only [setRegion, List.map_cons, if_neg hpk, pendingCount,
        List.filter_cons]
      simp only [pendingCount, setRegion] at hrec
      simp at hrec
      cases hps : (p.2.status == RegionStatus.pending) <;> simp [hps] <;> omega

theorem claimFirst_none {regs : Registry} {w : String} {now : Nat} :
    ∀ {ks : List String} {regs' : Registry},
      claimFirst regs w now ks = (none, regs') →
      regs' = regs ∧ ∀ k ∈ ks, ∀ r, lookupRegion regs k = some r →
        r.status ≠ RegionStatus.pending := by
  intro ks
  induction ks with
  | nil =>
    intro regs' h
    simp only [claimFirst, Prod.mk.injEq] at h
    exact ⟨h.2.symm, by simp⟩
  | cons k ks ih =>
    intro regs' h
    simp only [claimFirst] at h
    cases hl : lookupRegion regs k with
    | none =>
      rw [hl] at h
      obtain ⟨h1, h2⟩ := ih h
      refine ⟨h1, ?_⟩
      intro k2 hk2 r hr
      rcases List.mem_cons.mp hk2 with rfl | hk3
      · rw [hl] at hr; cases hr
      · exact h2 k2 hk3 r hr
    | some r0 =>
      rw [hl] at h
      simp only at h
      by_cases hp : r0.status = RegionStatus.pending
      · rw [if_pos hp] at h
        simp at h
      · rw [if_neg hp] at h
        obtain ⟨h1, h2⟩ := ih h
        refine ⟨h1, ?_⟩
        intro k2 hk2 r hr
        rcases List.mem_cons.mp hk2 with rfl | hk3
        · rw [hl] at hr
          simp only [Option.some.injEq] at hr
          exact hr ▸ hp
        · exact h2 k2 hk3 r hr

theorem claimFirst_some {regs : Registry} {w : String} {now : Nat} :
    ∀ {ks : List String} {k : String} {r' : RegionState} {regs' : Registry},
      claimFirst regs w now ks = (some (k, r'), regs') →
      ∃ r, lookupRegion regs k = some r ∧ r.status = RegionStatus.pending ∧
        r' = { r with status := RegionStatus.scanning,
                      assigned_worker := w, started_at := now } ∧
        regs' = setRegion regs k r' := by
  intro ks
  induction ks with
  | nil => intro k r' regs' h; simp [claimFirst] at h
  | cons k0 ks ih =>
    intro k r' regs' h
    simp only [claimFirst] at h
    cases hl : lookupRegion regs k0 with
    | none => rw [hl] at h; exact ih h
    | some r0 =>
      rw [hl] at h
      simp only at h
      by_cases hp : r0.status = RegionStatus.pending
      · rw [if_pos hp] at h
        simp only [Prod.mk.injEq, Option.some.injEq] at h
        obtain ⟨⟨hk, hr⟩, hregs⟩ := h
        subst hk
        refine ⟨r0, hl, hp, hr.symm, ?_⟩
        rw [← hregs, hr]
      · rw [if_neg hp] at h
        exact ih h

theorem get_next_region_none {regs : Registry} {w : String} {now : Nat}
    {regs' : Registry} (hnd : (regs.map Prod.fst).Nodup)
    (h : get_next_region regs w now = (none, regs')) :
    regs' = regs ∧ pendingCount regs = 0 := by
  obtain ⟨h1, h2⟩ := claimFirst_none h
  refine ⟨h1, ?_⟩
  rw [pendingCount, List.length_eq_zero, List.filter_eq_nil_iff]
  intro p hp hps
  have hk : p.1 ∈ sortedKeys regs := by
    rw [sortedKeys]
    exact (List.perm_insertionSort _ _).mem_iff.mpr
      (List.mem_map.mpr ⟨p, hp, rfl⟩)
  have hlp : lookupRegion regs p.1 = some p.2 := lookupRegion_of_mem hnd hp
  exact h2 p.1 hk p.2 hlp (by simpa using hps)

theorem get_next_region_some {regs : Registry} {w : String} {now : Nat}
    {k : String} {r' : RegionState} {regs' : Registry}
    (hnd : (regs.map Prod.fst).Nodup)
    (h : get_next_region regs w now = (some (k, r'), regs')) :
    (∃ r, lookupRegion regs k = some r ∧ r.status = RegionStatus.pending ∧
      r' = { r with status := RegionStatus.scanning,
                    assigned_worker := w, started_at := now }) ∧
    lookupRegion regs' k = some r' ∧
    (∀ k2, k2 ≠ k → lookupRegion regs' k2 = lookupRegion regs k2) ∧
    pendingCount regs' + 1 = pendingCount regs ∧
    (regs'.map Prod.fst).Nodup ∧
    r'.status = RegionStatus.scanning ∧ r'.assigned_worker = w := by
  obtain ⟨r, hl, hp, hr', hregs⟩ := claimFirst_some h
  subst hregs
  have hscan : r'.status = RegionStatus.scanning := by rw [hr']
  refine ⟨⟨r, hl, hp, hr'⟩, lookupRegion_setRegion_self hl r',
    fun k2 hk2 => lookupRegion_setRegion_ne hk2, ?_,
    by rw [setRegion_keys]; exact hnd, hscan, by rw [hr']⟩
  exact pendingCount_set_nonpending hnd hl hp (by rw [hscan]; simp)

theorem runClaims_spec (now : Nat) :
    ∀ (ws : List String) (regs : Registry), (regs.map Prod.fst).Nodup →
      (claimedPairs (runClaims now regs ws).1).length =
          min ws.length (pendingCount regs) ∧
        ((claimedPairs (runClaims now regs ws).1).map Prod.snd).Nodup ∧
        (∀ wk ∈ claimedPairs (runClaims now regs ws).1,
          ∃ r, lookupRegion regs wk.2 = some r ∧
            r.status = RegionStatus.pending) ∧
        (∀ wk ∈ claimedPairs (runClaims now regs ws).1,
          ∃ r, lookupRegion (runClaims now regs ws).2 wk.2 = some r ∧
            r.status = RegionStatus.scanning ∧ r.assigned_worker = wk.1) ∧
        (∀ k r, lookupRegion regs k = some r →
          r.status ≠ RegionStatus.pending →
          lookupRegion (runClaims now regs ws).2 k = some r) ∧
        ((runClaims now regs ws).2.map Prod.fst).Nodup := by
  intro ws
  induction ws with
  | nil =>
    intro regs hnd
    exact ⟨by simp [runClaims, claimedPairs], by simp [runClaims, claimedPairs],
      by simp [runClaims, claimedPairs], by simp [runClaims, claimedPairs],
      fun k r hl _ => hl, hnd⟩
  | cons w ws ih =>
    intro regs hnd
    rcases hg : get_next_region regs w now with ⟨res, regs1⟩
    cases res with
    | none =>
      obtain ⟨hsame, hzero⟩ := get_next_region_none hnd hg
      subst hsame
      obtain ⟨i1, i2, i3, i4, i5, i6⟩ := ih regs1 hnd
      simp only [runClaims, hg]
      refine ⟨?_, ?_, ?_, ?_, ?_, i6⟩
      · simp only [claimedPairs, List.filterMap_cons, Option.map_none']
        rw [show claimedPairs (runClaims now regs1 ws).1 =
          List.filterMap (fun p => Option.map (fun q => (p.1, q.1)) p.2)
            (runClaims now regs1 ws).1 from rfl] at i1
        rw [i1, hzero]
        simp
      · simpa [claimedPairs, List.filterMap_cons] using i2
      · simpa [claimedPairs, List.filterMap_cons] using i3
      · simpa [claimedPairs, List.filterMap_cons] using i4
      · exact i5
    | some kr =>
      obtain ⟨k, r'⟩ := kr
      obtain ⟨⟨r, hl, hp, hr'⟩, hlook, hother, hcount, hnd1, hscan, hworker⟩ :=
        get_next_region_some hnd hg
      obtain ⟨i1, i2, i3, i4, i5, i6⟩ := ih regs1 hnd1
      simp only [runClaims, hg]
      have hpairs : claimedPairs ((w, some (k, r')) :: (runClaims now regs1 ws).1) =
          (w, k) :: claimedPairs (runClaims now regs1 ws).1 := by
        simp [claimedPairs, List.filterMap_cons]
      refine ⟨?_, ?_, ?_, ?_, ?_, i6⟩
      · rw [hpairs, List.length_cons, i1, List.length_cons]
        omega
      · rw [hpairs, List.map_cons, List.nodup_cons]
        refine ⟨?_, i2⟩
        intro hmem
        rcases List.mem_map.mp hmem with ⟨wk, hwk, hwk2⟩
        obtain ⟨rp, hrp, hrpp⟩ := i3 wk hwk
        rw [hwk2, hlook] at hrp
        simp only [Option.some.injEq] at hrp
        rw [← hrp, hscan] at hrpp
        cases hrpp
      · rw [hpairs]
        intro wk hwk
        rcases List.mem_cons.mp hwk with rfl | hwk2
        · exact ⟨r, hl, hp⟩
        · obtain ⟨rp, hrp, hrpp⟩ := i3 wk hwk2
          have hne : wk.2 ≠ k := by
            intro he
            rw [he, hlook] at hrp
            simp only [Option.some.injEq] at hrp
            rw [← hrp, hscan] at hrpp
            cases hrpp
          rw [hother wk.2 hne] at hrp
          exact ⟨rp, hrp, hrpp⟩
      · rw [hpairs]
        intro wk hwk
        rcases List.mem_cons.mp hwk with rfl | hwk2
        · exact ⟨r', i5 k r' hlook (by rw [hscan]; simp), hscan, hworker⟩
        · exact i4 wk hwk2
      · intro k2 r2 hl2 hnp
        have hne : k2 ≠ k := by
          intro he
          rw [he, hl] at hl2
          simp only [Option.some.injEq] at hl2
          rw [← hl2] at hnp
          exact hnp hp
        refine i5 k2 r2 ?_ hnp
        rw [hother k2 hne]
        exact hl2

/-- C3.  Against a registry with distinct keys, each successful
`get_next_region` call flips exactly one region from PENDING to
SCANNING recording the caller as `assigned_worker` and leaving every
other entry untouched; a failed call means no PENDING region was left.
Across any serialised sequence of N calls (the lock serialises them),
exactly `min(N, M)` calls return a region where M is the PENDING count,
all returned regions are distinct, and in the final registry each
claimed region is SCANNING with exactly its claiming worker recorded —
no region is ever assigned to two workers at once. -/
theorem c3_atomic_claim (now : Nat) (ws : List String) (regs : Registry)
    (hnd : (regs.map Prod.fst).Nodup) :
    (∀ w regs', get_next_region regs w now = (none, regs') →
        regs' = regs ∧ pendingCount regs = 0) ∧
      (∀ w k r' regs', get_next_region regs w now = (some (k, r'), regs') →
        (∃ r, lookupRegion regs k = some r ∧ r.status = RegionStatus.pending ∧
          r' = { r with status := RegionStatus.scanning,
                        assigned_worker := w, started_at := now }) ∧
        lookupRegion regs' k = some r' ∧
        (∀ k2, k2 ≠ k → lookupRegion regs' k2 = lookupRegion regs k2) ∧
        pendingCount regs' + 1 = pendingCount regs) ∧
      (claimedPairs (runClaims now regs ws).1).length =
        min ws.length (pendingCount regs) ∧
      ((claimedPairs (runClaims now regs ws).1).map Prod.snd).Nodup ∧
      (∀ wk ∈ claimedPairs (runClaims now regs ws).1,
        ∃ r, lookupRegion (runClaims now regs ws).2 wk.2 = some r ∧
          r.status = RegionStatus.scanning ∧ r.assigned_worker = wk.1) := by
  obtain ⟨h1, h2, _, h4, _, _⟩ := runClaims_spec now ws regs hnd
  refine ⟨fun w regs' h => get_next_region_none hnd h, ?_, h1, h2, h4⟩
  intro w k r' regs' h
  obtain ⟨s1, s2, s3, s4, _, _, _⟩ := get_next_region_some hnd h
  exact ⟨s1, s2, s3, s4⟩

/-- Witness for C3: two PENDING regions, three workers. -/
theorem c3_atomic_claim_witness :
    (claimedPairs (runClaims 7
        [("11_10", ⟨11, 10, RegionStatus.pending, "", 0⟩),
         ("12_10", ⟨12, 10, RegionStatus.pending, "", 0⟩)]
        ["w1", "w2", "w3"]).1).length =
      min (["w1", "w2", "w3"] : List String).length
        (pendingCount
          [("11_10", ⟨11, 10, RegionStatus.pending, "", 0⟩),
           ("12_10", ⟨12, 10, RegionStatus.pending, "", 0⟩)]) :=
  (c3_atomic_claim 7 ["w1", "w2", "w3"]
    [("11_10", ⟨11, 10, RegionStatus.pending, "", 0⟩),
     ("12_10", ⟨12, 10, RegionStatus.pending, "", 0⟩)]
    (by decide)).2.2.1

/-! ## Area unblock lemmas (claim C8) -/

theorem foldl_nested_eq_flatten {α γ : Type} (f : γ → α → γ)
    (L : List (List α)) (init : γ) :
    L.foldl (fun acc l => l.foldl f acc) init = L.flatten.foldl f init := by
  induction L generalizing init with
  | nil => rfl
  | cons l L ih => simp [List.foldl_append, ih]

theorem cmd_unblock_loop_eq_visits (region : GeoRegion) (cx cy : Int)
    (radius : Nat) :
    cmd_unblock_loop region cx cy radius =
      (visitList cx cy radius).foldl visitStep (region, 0) := by
  rw [cmd_unblock_loop, visitList, ← foldl_nested_eq_flatten]
  rw [List.foldl_map]
  congr 1
  funext acc dx
  rw [List.foldl_map]
  rfl

theorem list_get?_set_self {α : Type} {l : List α} {i : Nat} (h : i < l.length)
    (a : α) : (l.set i a).get? i = some a := by
  rw [List.get?_eq_getElem?]
  exact List.getElem?_set_self h

theorem list_get?_set_ne {α : Type} {l : List α} {i j : Nat} (h : i ≠ j)
    (a : α) : (l.set i a).get? j = l.get? j := by
  rw [List.get?_eq_getElem?, List.getElem?_set_ne h, List.get?_eq_getElem?]

theorem get_layers_eq_block {r : GeoRegion} {x y : Nat} {b : Block}
    (hgb : r.get_block (x / BLOCK_CELLS_X) (y / BLOCK_CELLS_Y) = some b) :
    r.get_layers x y = b.get_layers (x % BLOCK_CELLS_X) (y % BLOCK_CELLS_Y) := by
  rw [GeoRegion.get_layers, hgb]

theorem setBlock_get_block_self {r : GeoRegion} {bx by' : Nat}
    (h : bx * REGION_BLOCKS_Y + by' < r.blocks.length) (b : Block) :
    (setBlock r bx by' b).get_block bx by' = some b := by
  rw [setBlock, GeoRegion.get_block]
  exact list_get?_set_self h b

theorem setBlock_get_block_ne {r : GeoRegion} {bx by' bx2 by2 : Nat}
    (h : bx * REGION_BLOCKS_Y + by' ≠ bx2 * REGION_BLOCKS_Y + by2) (b : Block) :
    (setBlock r bx by' b).get_block bx2 by2 = r.get_block bx2 by2 := by
  rw [setBlock, GeoRegion.get_block, GeoRegion.get_block]
  exact list_get?_set_ne h b

theorem setBlock_wf {r : GeoRegion} (hwf : regionWF r) {b : Block}
    (hb : blockWF b) (bx by' : Nat) : regionWF (setBlock r bx by' b) := by
  refine ⟨by rw [setBlock]; simpa using hwf.1, ?_⟩
  intro b2 hb2
  rw [setBlock] at hb2
  rcases List.mem_or_eq_of_mem_set hb2 with hb3 | rfl
  · exact hwf.2 b2 hb3
  · exact hb

theorem blockIdx_lt {r : GeoRegion} (hlen : r.blocks.length = REGION_BLOCKS)
    {x y : Nat} (hx : x < 2048) (hy : y < 2048) :
    (x / BLOCK_CELLS_X) * REGION_BLOCKS_Y + y / BLOCK_CELLS_Y <
      r.blocks.length := by
  rw [hlen]
  simp only [BLOCK_CELLS_X, BLOCK_CELLS_Y, REGION_BLOCKS_Y, REGION_BLOCKS,
    REGION_BLOCKS_X]
  omega

theorem cellIdx_lt {x y : Nat} :
    (x % BLOCK_CELLS_X) * BLOCK_CELLS_Y + y % BLOCK_CELLS_Y < BLOCK_CELLS := by
  simp only [BLOCK_CELLS_X, BLOCK_CELLS_Y, BLOCK_CELLS]
  omega

theorem coord_index_cases {x y x2 y2 : Nat} (hx : x < 2048) (hy : y < 2048)
    (hx2 : x2 < 2048) (hy2 : y2 < 2048) (hne : ¬(x2 = x ∧ y2 = y)) :
    (x2 / BLOCK_CELLS_X) * REGION_BLOCKS_Y + y2 / BLOCK_CELLS_Y ≠
        (x / BLOCK_CELLS_X) * REGION_BLOCKS_Y + y / BLOCK_CELLS_Y ∨
      ((x2 / BLOCK_CELLS_X) * REGION_BLOCKS_Y + y2 / BLOCK_CELLS_Y =
          (x / BLOCK_CELLS_X) * REGION_BLOCKS_Y + y / BLOCK_CELLS_Y ∧
        (x2 % BLOCK_CELLS_X) * BLOCK_CELLS_Y + y2 % BLOCK_CELLS_Y ≠
          (x % BLOCK_CELLS_X) * BLOCK_CELLS_Y + y % BLOCK_CELLS_Y) := by
  simp only [BLOCK_CELLS_X, BLOCK_CELLS_Y, REGION_BLOCKS_Y] at *
  by_cases hb : (x2 / 8) * 256 + y2 / 8 = (x / 8) * 256 + y / 8
  · right
    refine ⟨hb, ?_⟩
    intro hc
    exact hne (by constructor <;> omega)
  · left
    exact hb

theorem get_block_congr {r : GeoRegion} {bx by' bx2 by2 : Nat}
    (h : bx * REGION_BLOCKS_Y + by' = bx2 * REGION_BLOCKS_Y + by2) :
    r.get_block bx by' = r.get_block bx2 by2 := by
  rw [GeoRegion.get_block, GeoRegion.get_block, h]

theorem get_layers_eq_of_get_block {r r2 : GeoRegion} {x y : Nat}
    (h : r.get_block (x / BLOCK_CELLS_X) (y / BLOCK_CELLS_Y) =
        r2.get_block (x / BLOCK_CELLS_X) (y / BLOCK_CELLS_Y)) :
    r.get_layers x y = r2.get_layers x y := by
  rw [GeoRegion.get_layers, GeoRegion.get_layers, h]

theorem get_layers_flat (h : Int) (x y : Nat) :
    (Block.flat h).get_layers x y = some [⟨h, NSWE_ALL_L2D⟩] := rfl

theorem get_layers_complex (cells : List Cell) (x y : Nat) :
    (Block.complex cells).get_layers x y =
      (cells.get? (x * BLOCK_CELLS_Y + y)).map (fun c => [c]) := rfl

theorem get_layers_multilayer (cls : List (List Cell)) (x y : Nat) :
    (Block.multilayer cls).get_layers x y =
      cls.get? (x * BLOCK_CELLS_Y + y) := rfl

theorem unblockStep_walkable {c : Cell} (h : c.nswe &&& NSWE_ALL = NSWE_ALL) :
    unblockStep c = c := by
  rw [unblockStep, if_pos h]

theorem unblockStep_blocked {c : Cell} (h : ¬c.nswe &&& NSWE_ALL = NSWE_ALL) :
    unblockStep c = ⟨c.height, NSWE_ALL_L2D⟩ := by
  rw [unblockStep, if_neg h]

theorem nswe_l2d_walkable : NSWE_ALL_L2D &&& NSWE_ALL = NSWE_ALL := by decide

theorem unblockCell_spec {r : GeoRegion} (hwf : regionWF r) {x y : Nat}
    (hx : x < 2048) (hy : y < 2048) (cnt : Nat) :
    regionWF (unblockCell (r, cnt) x y).1 ∧
      (unblockCell (r, cnt) x y).2 = cnt + cellModCount r x y ∧
      (unblockCell (r, cnt) x y).1.get_layers x y =
        (r.get_layers x y).map (List.map unblockStep) ∧
      (∀ x2 y2, x2 < 2048 → y2 < 2048 → ¬(x2 = x ∧ y2 = y) →
        (unblockCell (r, cnt) x y).1.get_layers x2 y2 = r.get_layers x2 y2) := by
  obtain ⟨b, hgb, hbm⟩ := get_block_of_len hwf.1 hx hy
  have hbwf := hwf.2 b hbm
  have hbi := blockIdx_lt hwf.1 hx hy
  have hlayers := get_layers_eq_block (r := r) (x := x) (y := y) hgb
  cases b with
  | flat h =>
    have heval : unblockCell (r, cnt) x y = (r, cnt) := by
      simp only [unblockCell, hgb]
    have h255 : ((⟨h, NSWE_ALL_L2D⟩ : Cell).nswe &&& NSWE_ALL = NSWE_ALL) :=
      nswe_l2d_walkable
    have hb255 : (((⟨h, NSWE_ALL_L2D⟩ : Cell).nswe &&& NSWE_ALL == NSWE_ALL)) = true :=
      beq_iff_eq.mpr h255
    have hmod : cellModCount r x y = 0 := by
      rw [cellModCount, hlayers, get_layers_flat]
      simp [List.filter_cons, hb255]
    refine ⟨by rw [heval]; exact hwf, by rw [heval, hmod]; simp, ?_,
      fun x2 y2 _ _ _ => by rw [heval]⟩
    rw [heval, hlayers, get_layers_flat, Option.map_some', List.map_cons,
      List.map_nil, unblockStep_walkable h255]
  | complex cells =>
    have hclen : cells.length = BLOCK_CELLS := hbwf
    have hci : (x % BLOCK_CELLS_X) * BLOCK_CELLS_Y + y % BLOCK_CELLS_Y <
        cells.length := by rw [hclen]; exact cellIdx_lt
    have hold := List.get?_eq_get hci
    set old := cells.get ⟨(x % BLOCK_CELLS_X) * BLOCK_CELLS_Y + y % BLOCK_CELLS_Y, hci⟩
      with hold_def
    have hmod : cellModCount r x y =
        if old.nswe &&& NSWE_ALL = NSWE_ALL then 0 else 1 := by
      rw [cellModCount, hlayers, get_layers_complex, hold, Option.map_some']
      by_cases hcc : old.nswe &&& NSWE_ALL = NSWE_ALL
      · rw [if_pos hcc]
        have hb : (old.nswe &&& NSWE_ALL == NSWE_ALL) = true := beq_iff_eq.mpr hcc
        simp [List.filter_cons, hb]
      · rw [if_neg hcc]
        have hb : (old.nswe &&& NSWE_ALL == NSWE_ALL) = false := by
          rw [beq_eq_false_iff_ne]
          exact hcc
        simp [List.filter_cons, hb]
    by_cases hc : old.nswe &&& NSWE_ALL = NSWE_ALL
    · have heval : unblockCell (r, cnt) x y = (r, cnt) := by
        simp only [unblockCell, hgb, hold]
        rw [if_neg (not_not_intro hc)]
      refine ⟨by rw [heval]; exact hwf,
        by rw [heval, hmod, if_pos hc]; simp, ?_,
        fun x2 y2 _ _ _ => by rw [heval]⟩
      rw [heval, hlayers, get_layers_complex, hold, Option.map_some',
        Option.map_some', List.map_cons, List.map_nil, unblockStep_walkable hc]
    · have heval : unblockCell (r, cnt) x y =
          (setBlock r (x / BLOCK_CELLS_X) (y / BLOCK_CELLS_Y)
            (.complex (cells.set
              ((x % BLOCK_CELLS_X) * BLOCK_CELLS_Y + y % BLOCK_CELLS_Y)
              ⟨old.height, NSWE_ALL_L2D⟩)), cnt + 1) := by
        simp only [unblockCell, hgb, hold]
        rw [if_pos hc]
      have hwf2 : regionWF (unblockCell (r, cnt) x y).1 := by
        rw [heval]
        refine setBlock_wf hwf ?_ _ _
        show (cells.set _ _).length = BLOCK_CELLS
        rw [List.length_set]
        exact hclen
      refine ⟨hwf2, by rw [heval, hmod, if_neg hc], ?_, ?_⟩
      · rw [heval]
        simp only
        rw [get_layers_eq_block (setBlock_get_block_self hbi _),
          get_layers_complex,
          list_get?_set_self hci,
          hlayers, get_layers_complex, hold]
        simp only [Option.map_some', List.map_cons, List.map_nil]
        rw [unblockStep_blocked hc]
      · intro x2 y2 hx2 hy2 hne
        rw [heval]
        simp only
        rcases coord_index_cases hx hy hx2 hy2 hne with hbne | ⟨hbe, hcne⟩
        · exact get_layers_eq_of_get_block (setBlock_get_block_ne (Ne.symm hbne) _)
        · rw [get_layers_eq_block
            (show (setBlock r (x / BLOCK_CELLS_X) (y / BLOCK_CELLS_Y)
                (Block.complex (cells.set
                  ((x % BLOCK_CELLS_X) * BLOCK_CELLS_Y + y % BLOCK_CELLS_Y)
                  ⟨old.height, NSWE_ALL_L2D⟩))).get_block
                (x2 / BLOCK_CELLS_X) (y2 / BLOCK_CELLS_Y) = some _ from by
              rw [get_block_congr hbe]; exact setBlock_get_block_self hbi _),
            get_layers_eq_block
            (show r.get_block (x2 / BLOCK_CELLS_X) (y2 / BLOCK_CELLS_Y) =
                some (Block.complex cells) from by
              rw [get_block_congr hbe]; exact hgb),
            get_layers_complex, get_layers_complex,
            list_get?_set_ne (Ne.symm hcne)]
  | multilayer cls =>
    have hclen : cls.length = BLOCK_CELLS := hbwf
    have hci : (x % BLOCK_CELLS_X) * BLOCK_CELLS_Y + y % BLOCK_CELLS_Y <
        cls.length := by rw [hclen]; exact cellIdx_lt
    have hold := List.get?_eq_get hci
    set stack := cls.get ⟨(x % BLOCK_CELLS_X) * BLOCK_CELLS_Y + y % BLOCK_CELLS_Y, hci⟩
      with hstack_def
    have heval : unblockCell (r, cnt) x y =
        (setBlock r (x / BLOCK_CELLS_X) (y / BLOCK_CELLS_Y)
          (.multilayer (cls.set
            ((x % BLOCK_CELLS_X) * BLOCK_CELLS_Y + y % BLOCK_CELLS_Y)
            (stack.map unblockStep))),
          cnt + (stack.filter (fun c => !(c.nswe &&& NSWE_ALL == NSWE_ALL))).length) := by
      simp only [unblockCell, hgb, hold]
    have hmod : cellModCount r x y =
        (stack.filter (fun c => !(c.nswe &&& NSWE_ALL == NSWE_ALL))).length := by
      rw [cellModCount, hlayers, get_layers_multilayer, hold]
    have hwf2 : regionWF (unblockCell (r, cnt) x y).1 := by
      rw [heval]
      refine setBlock_wf hwf ?_ _ _
      show (cls.set _ _).length = BLOCK_CELLS
      rw [List.length_set]
      exact hclen
    refine ⟨hwf2, by rw [heval, hmod], ?_, ?_⟩
    · rw [heval]
      simp only
      rw [get_layers_eq_block (setBlock_get_block_self hbi _),
        get_layers_multilayer,
        list_get?_set_self hci,
        hlayers, get_layers_multilayer, hold, Option.map_some']
    · intro x2 y2 hx2 hy2 hne
      rw [heval]
      simp only
      rcases coord_index_cases hx hy hx2 hy2 hne with hbne | ⟨hbe, hcne⟩
      · exact get_layers_eq_of_get_block (setBlock_get_block_ne (Ne.symm hbne) _)
      · rw [get_layers_eq_block
          (show (setBlock r (x / BLOCK_CELLS_X) (y / BLOCK_CELLS_Y)
              (Block.multilayer (cls.set
                ((x % BLOCK_CELLS_X) * BLOCK_CELLS_Y + y % BLOCK_CELLS_Y)
                (stack.map unblockStep)))).get_block
              (x2 / BLOCK_CELLS_X) (y2 / BLOCK_CELLS_Y) = some _ from by
            rw [get_block_congr hbe]; exact setBlock_get_block_self hbi _),
          get_layers_eq_block
          (show r.get_block (x2 / BLOCK_CELLS_X) (y2 / BLOCK_CELLS_Y) =
              some (Block.multilayer cls) from by
            rw [get_block_congr hbe]; exact hgb),
          get_layers_multilayer, get_layers_multilayer,
          list_get?_set_ne (Ne.symm hcne)]

theorem visitStep_in {acc : GeoRegion × Nat} {p : Int × Int}
    (h : inRangePair p) :
    visitStep acc p = unblockCell acc p.1.toNat p.2.toNat := by
  rw [inRangePair] at h
  rw [visitStep, if_neg]
  simp only [REGION_CELLS_X, REGION_CELLS_Y, REGION_BLOCKS_X, REGION_BLOCKS_Y,
    BLOCK_CELLS_X, BLOCK_CELLS_Y, not_or, not_lt, not_le]
  omega

theorem visitStep_out {acc : GeoRegion × Nat} {p : Int × Int}
    (h : ¬inRangePair p) :
    visitStep acc p = acc := by
  rw [inRangePair] at h
  rw [visitStep, if_pos]
  simp only [REGION_CELLS_X, REGION_CELLS_Y, REGION_BLOCKS_X, REGION_BLOCKS_Y,
    BLOCK_CELLS_X, BLOCK_CELLS_Y]
  omega

theorem cellModCount_congr {r r2 : GeoRegion} {x y : Nat}
    (h : r2.get_layers x y = r.get_layers x y) :
    cellModCount r2 x y = cellModCount r x y := by
  rw [cellModCount, cellModCount, h]

theorem foldVisits_spec (ps : List (Int × Int)) :
    ps.Nodup → ∀ r : GeoRegion, regionWF r → ∀ cnt : Nat,
      regionWF ((ps.foldl visitStep (r, cnt)).1) ∧
      (ps.foldl visitStep (r, cnt)).2 = cnt + (ps.map (pairModCount r)).sum ∧
      (∀ p ∈ ps, inRangePair p →
        (ps.foldl visitStep (r, cnt)).1.get_layers p.1.toNat p.2.toNat =
          (r.get_layers p.1.toNat p.2.toNat).map (List.map unblockStep)) ∧
      (∀ x2 y2 : Nat, x2 < 2048 → y2 < 2048 →
        (∀ p ∈ ps, inRangePair p → ¬(x2 = p.1.toNat ∧ y2 = p.2.toNat)) →
        (ps.foldl visitStep (r, cnt)).1.get_layers x2 y2 = r.get_layers x2 y2) := by
  induction ps with
  | nil =>
    intro _ r hwf cnt
    exact ⟨hwf, by simp, fun p hp => absurd hp (List.not_mem_nil p),
      fun x2 y2 _ _ _ => rfl⟩
  | cons p ps ih =>
    intro hnd r hwf cnt
    obtain ⟨hpnotin, hnd2⟩ := List.nodup_cons.mp hnd
    by_cases hin : inRangePair p
    · have hin' := hin
      rw [inRangePair] at hin'
      have hx : p.1.toNat < 2048 := by omega
      have hy : p.2.toNat < 2048 := by omega
      have hstep : visitStep (r, cnt) p = unblockCell (r, cnt) p.1.toNat p.2.toNat :=
        visitStep_in hin
      obtain ⟨hwf1, hcnt1, hself1, hother1⟩ := unblockCell_spec hwf hx hy cnt
      set acc1 := unblockCell (r, cnt) p.1.toNat p.2.toNat with hacc1
      have hfold : (p :: ps).foldl visitStep (r, cnt) =
          ps.foldl visitStep (acc1.1, acc1.2) := by
        rw [List.foldl_cons, hstep]
      have hdistinct : ∀ q ∈ ps, inRangePair q →
          ¬(q.1.toNat = p.1.toNat ∧ q.2.toNat = p.2.toNat) := by
        intro q hq hqin hc
        have hqin' := hqin
        rw [inRangePair] at hqin'
        apply hpnotin
        have e1 : q.1 = p.1 := by omega
        have e2 : q.2 = p.2 := by omega
        have : q = p := Prod.ext_iff.mpr ⟨e1, e2⟩
        exact this ▸ hq
      have hlay_congr : ∀ q ∈ ps, inRangePair q →
          acc1.1.get_layers q.1.toNat q.2.toNat = r.get_layers q.1.toNat q.2.toNat := by
        intro q hq hqin
        have hqin' := hqin
        rw [inRangePair] at hqin'
        exact hother1 q.1.toNat q.2.toNat (by omega) (by omega)
          (hdistinct q hq hqin)
      have hpm_congr : ps.map (pairModCount acc1.1) = ps.map (pairModCount r) := by
        apply List.map_congr_left
        intro q hq
        rw [pairModCount, pairModCount]
        by_cases hqin : inRangePair q
        · rw [if_pos hqin, if_pos hqin]
          exact cellModCount_congr (hlay_congr q hq hqin)
        · rw [if_neg hqin, if_neg hqin]
      obtain ⟨h1, h2, h3, h4⟩ := ih hnd2 acc1.1 hwf1 acc1.2
      refine ⟨by rw [hfold]; exact h1, ?_, ?_, ?_⟩
      · rw [hfold, h2, hpm_congr, hcnt1, List.map_cons, List.sum_cons]
        have hpm : pairModCount r p = cellModCount r p.1.toNat p.2.toNat := by
          rw [pairModCount, if_pos hin]
        rw [hpm]
        omega
      · intro q hq hqin
        rcases List.mem_cons.mp hq with hqp | hq2
        · subst hqp
          rw [hfold,
            h4 q.1.toNat q.2.toNat hx hy
              (fun q2 hq2 hq2in hc => hdistinct q2 hq2 hq2in ⟨hc.1.symm, hc.2.symm⟩)]
          exact hself1
        · rw [hfold, h3 q hq2 hqin, hlay_congr q hq2 hqin]
      · intro x2 y2 hx2 hy2 hforall
        rw [hfold,
          h4 x2 y2 hx2 hy2 (fun q hq => hforall q (List.mem_cons_of_mem _ hq))]
        exact hother1 x2 y2 hx2 hy2 (hforall p (List.mem_cons_self p ps) hin)
    · have hstep : visitStep (r, cnt) p = (r, cnt) := visitStep_out hin
      have hfold : (p :: ps).foldl visitStep (r, cnt) =
          ps.foldl visitStep (r, cnt) := by
        rw [List.foldl_cons, hstep]
      have hpm : pairModCount r p = 0 := by rw [pairModCount, if_neg hin]
      obtain ⟨h1, h2, h3, h4⟩ := ih hnd2 r hwf cnt
      refine ⟨by rw [hfold]; exact h1, ?_, ?_, ?_⟩
      · rw [hfold, h2, List.map_cons, List.sum_cons, hpm, Nat.zero_add]
      · intro q hq hqin
        rcases List.mem_cons.mp hq with hqp | hq2
        · exact absurd (hqp ▸ hqin) hin
        · rw [hfold]
          exact h3 q hq2 hqin
      · intro x2 y2 hx2 hy2 hforall
        rw [hfold]
        exact h4 x2 y2 hx2 hy2 (fun q hq => hforall q (List.mem_cons_of_mem _ hq))

theorem mem_offsets {radius : Nat} {d : Int} :
    d ∈ offsets radius ↔ -(radius : Int) ≤ d ∧ d ≤ radius := by
  rw [offsets]
  simp only [List.mem_map, List.mem_range]
  constructor
  · rintro ⟨i, hi, rfl⟩
    omega
  · intro h
    exact ⟨(d + radius).toNat, by omega, by omega⟩

theorem offsets_nodup (radius : Nat) : (offsets radius).Nodup := by
  rw [offsets]
  exact (List.nodup_range _).map (fun a b h => by omega)

theorem mem_visitList {cx cy : Int} {radius : Nat} {p : Int × Int} :
    p ∈ visitList cx cy radius ↔
      ∃ dx dy : Int, (-(radius : Int) ≤ dx ∧ dx ≤ radius) ∧
        (-(radius : Int) ≤ dy ∧ dy ≤ radius) ∧ p = (cx + dx, cy + dy) := by
  rw [visitList]
  simp only [List.mem_flatten, List.mem_map]
  constructor
  · rintro ⟨l, ⟨dx, hdx, rfl⟩, hp⟩
    obtain ⟨dy, hdy, rfl⟩ := List.mem_map.mp hp
    exact ⟨dx, dy, mem_offsets.mp hdx, mem_offsets.mp hdy, rfl⟩
  · rintro ⟨dx, dy, hdx, hdy, rfl⟩
    exact ⟨_, ⟨dx, mem_offsets.mpr hdx, rfl⟩,
      List.mem_map.mpr ⟨dy, mem_offsets.mpr hdy, rfl⟩⟩

theorem visitList_nodup (cx cy : Int) (radius : Nat) :
    (visitList cx cy radius).Nodup := by
  rw [visitList, List.nodup_flatten]
  constructor
  · intro l hl
    obtain ⟨dx, _, rfl⟩ := List.mem_map.mp hl
    refine (offsets_nodup radius).map (fun a b h => ?_)
    have h2 : cy + a = cy + b := congrArg Prod.snd h
    omega
  · refine (List.pairwise_map).mpr ((offsets_nodup radius).imp ?_)
    intro a b hab p hpa hpb
    obtain ⟨dy1, _, rfl⟩ := List.mem_map.mp hpa
    obtain ⟨dy2, _, he⟩ := List.mem_map.mp hpb
    have h1 : cx + b = cx + a := congrArg Prod.fst he
    exact hab (by omega)

theorem c8Region_wf : regionWF c8Region := by
  constructor
  · show (List.replicate 2570 (Block.flat 0) ++
      Block.complex (List.replicate 64 ⟨0, 0⟩) ::
        List.replicate 62965 (Block.flat 0)).length = REGION_BLOCKS
    rw [List.length_append, List.length_replicate, List.length_cons,
      List.length_replicate]
    rfl
  · intro b hb
    rcases List.mem_append.mp hb with h1 | h2
    · rw [List.eq_of_mem_replicate h1]
      trivial
    · rcases List.mem_cons.mp h2 with h3 | h4
      · rw [h3]
        show (List.replicate 64 (⟨0, 0⟩ : Cell)).length = BLOCK_CELLS
        rw [List.length_replicate]
        rfl
      · rw [List.eq_of_mem_replicate h4]
        trivial

/-! ## Coordinate conversion theorems (claims C4, C7) -/

/-- C4.  For every region coordinate pair and every cell coordinate pair
with `cx, cy ∈ [0, 2048)`, `region_to_world_coords` followed by
`world_to_region_coords` returns the original `(rx, ry, cx, cy)`: the
floor-division conversions are exact inverses. -/
theorem c4_coords_roundtrip (rx ry cx cy : Int)
    (hx0 : 0 ≤ cx) (hx : cx < 2048) (hy0 : 0 ≤ cy) (hy : cy < 2048) :
    world_to_region_coords (region_to_world_coords rx ry cx cy).1
      (region_to_world_coords rx ry cx cy).2 = (rx, ry, cx, cy) := by
  simp only [region_to_world_coords, world_to_region_coords, REGION_CELLS_X, REGION_CELLS_Y,
    REGION_BLOCKS_X, REGION_BLOCKS_Y, BLOCK_CELLS_X, BLOCK_CELLS_Y]
  rw [Int.fdiv_eq_ediv _ (by norm_num), Int.fdiv_eq_ediv _ (by norm_num),
      Int.fdiv_eq_ediv _ (by norm_num), Int.fdiv_eq_ediv _ (by norm_num),
      Int.fmod_eq_emod _ (by norm_num), Int.fmod_eq_emod _ (by norm_num)]
  simp only [Prod.mk.injEq]
  refine ⟨by omega, by omega, by omega, by omega⟩

/-- Witness for C4 at the concrete input `(22, 16, 667, 1144)`. -/
theorem c4_coords_roundtrip_witness :
    world_to_region_coords (region_to_world_coords 22 16 667 1144).1
      (region_to_world_coords 22 16 667 1144).2 = (22, 16, 667, 1144) :=
  c4_coords_roundtrip 22 16 667 1144 (by decide) (by decide) (by decide) (by decide)

/-- C7 counterexample.  The spec's worked example is wrong on both
directions: `world_to_region_coords (83000, 148000)` is not
`(22, 16, 667, 1144)`, and `region_to_world_coords (22, 16, 667, 1144)`
is not `(83000, 148000)` (it is `(43440, -47232)`). -/
theorem c7_counterexample :
    world_to_region_coords 83000 148000 ≠ (22, 16, 667, 1144) ∧
      region_to_world_coords 22 16 667 1144 ≠ (83000, 148000) := by
  constructor <;> decide

/-! ## Codec round-trip theorems (claims C1, C6) -/

/-- C1 counterexample.  `parse_l2d` also "accepts" (decodes 65 536 blocks
without raising from) a file with trailing garbage, and there
`write_l2d` of the parsed region is not byte-equal to the input: the
all-flat region encoding followed by one extra byte parses, but
re-serialising drops the extra byte. -/
theorem c1_counterexample :
    parse_l2d 0 0 (flatZeroBytes ++ [0xD0]) =
        some ⟨0, 0, List.replicate REGION_BLOCKS (Block.flat 0)⟩ ∧
      write_l2d ⟨0, 0, List.replicate REGION_BLOCKS (Block.flat 0)⟩ ≠
        flatZeroBytes ++ [0xD0] := by
  constructor
  · rw [parse_l2d, flatZeroBytes, parseBlocks_replicate_flat]
  · intro h
    rw [write_l2d] at h
    simp only at h
    rw [writeBlocks_replicate_flat, ← flatZeroBytes] at h
    exact absurd (List.self_eq_append_right.mp h) (by simp)

/-- C1 (amended).  For every byte string `F` from which `parse_l2d`
decodes its 65 536 blocks consuming the input exactly (no leftover
bytes), re-serialising the parsed region with `write_l2d` is byte-equal
to `F`. -/
theorem c1_roundtrip_exact (rx ry : Int) (F : List Nat) (bs : List Block)
    (hb : ∀ x ∈ F, x < 256)
    (hp : parseBlocks REGION_BLOCKS F = some (bs, [])) :
    parse_l2d rx ry F = some ⟨rx, ry, bs⟩ ∧ write_l2d ⟨rx, ry, bs⟩ = F := by
  constructor
  · rw [parse_l2d, hp]
  · have h := parseBlocks_append hp hb
    simpa [write_l2d] using h

/-- Witness for C1 at the concrete all-flat region file. -/
theorem c1_roundtrip_exact_witness :
    parse_l2d 0 0 flatZeroBytes =
        some ⟨0, 0, List.replicate REGION_BLOCKS (Block.flat 0)⟩ ∧
      write_l2d ⟨0, 0, List.replicate REGION_BLOCKS (Block.flat 0)⟩ = flatZeroBytes :=
  c1_roundtrip_exact 0 0 flatZeroBytes (List.replicate REGION_BLOCKS (Block.flat 0))
    flatZeroBytes_lt
    (by rw [flatZeroBytes]
        simpa using parseBlocks_replicate_flat REGION_BLOCKS [])

/-- C6 counterexample.  The claim says bytes remaining after the
65 536th block are an error, but `parse_l2d` succeeds on the all-flat
encoding followed by one leftover byte. -/
theorem c6_counterexample :
    (parse_l2d 0 0 (flatZeroBytes ++ [0])).isSome = true := by
  rw [parse_l2d, flatZeroBytes, parseBlocks_replicate_flat]
  rfl

/-- C6 (amended).  `parse_l2d` fails when the data ends before 65 536
blocks are decoded — every accepted input has a complete 65 536-block
encoding as a prefix, so an input admitting no such prefix (premature
EOF) errors — but leftover bytes after the 65 536th block are *not* an
error: they are silently ignored. -/
theorem c6_eof_errors_leftover_ignored :
    (∀ (rx ry : Int) (F : List Nat) (r : GeoRegion), (∀ x ∈ F, x < 256) →
        parse_l2d rx ry F = some r →
        ∃ rest, F = write_l2d r ++ rest ∧ r.blocks.length = REGION_BLOCKS) ∧
      (∃ F rest, rest ≠ ([] : List Nat) ∧
        parseBlocks REGION_BLOCKS F =
          some (List.replicate REGION_BLOCKS (Block.flat 0), rest) ∧
        (parse_l2d 0 0 F).isSome = true) := by
  constructor
  · intro rx ry F r hb hp
    rw [parse_l2d] at hp
    cases hq : parseBlocks REGION_BLOCKS F with
    | none => rw [hq] at hp; simp at hp
    | some p =>
      obtain ⟨bs, rest⟩ := p
      rw [hq] at hp
      simp only [Option.some.injEq] at hp
      subst hp
      exact ⟨rest, (parseBlocks_append hq hb).symm, parseBlocks_length hq⟩
  · refine ⟨flatZeroBytes ++ [0], [0], by simp, ?_, ?_⟩
    · rw [flatZeroBytes]
      exact parseBlocks_replicate_flat REGION_BLOCKS [0]
    · rw [parse_l2d, flatZeroBytes, parseBlocks_replicate_flat]
      rfl

/-- C7 (amended).  `world_to_region_coords (83000, 148000)` returns
region `(23, 22)` with cell `(1091, 1058)`, and `region_to_world_coords`
applied to `(23, 22, 1091, 1058)` returns `(82992, 148000)` — the world
x coordinate comes back snapped to the 16-unit cell grid. -/
theorem c7_amended_coords :
    world_to_region_coords 83000 148000 = (23, 22, 1091, 1058) ∧
      region_to_world_coords 23 22 1091 1058 = (82992, 148000) := by
  constructor <;> decide

set_option maxRecDepth 100000 in
/-- C8 (amended).  The area-unblock loop visits exactly the cells
`(cx + dx, cy + dy)` with `dx, dy ∈ [-radius, radius]` that lie inside
`[0, 2048)²`: on a well-formed region the result is well-formed, the
returned count is the number of visited layers whose cardinal nibble
differs from `0x0F`, every visited in-range cell has each of its layers
rewritten by `unblockStep` (which leaves a walkable cell unchanged and
otherwise sets `nswe = 0xFF` preserving the height — Flat cells are
always walkable, so Flat blocks never change), and every other cell is
untouched.  In the spec's scenario — the all-blocked Complex block at
`(10, 10)`, unblock at `(80, 80)` with radius 3 — the count is 16, not
49: only the 4×4 corner `[80, 83]²` of the 7×7 visited square falls in
the Complex block; cell `(80, 80)` becomes `nswe = 0xFF` while the
unvisited blocked cell `(84, 84)` keeps `nswe = 0x00`. -/
theorem c8_area_unblock (region : GeoRegion) (hwf : regionWF region)
    (cx cy : Int) (radius : Nat) :
    (∀ c : Cell, (c.nswe &&& NSWE_ALL = NSWE_ALL → unblockStep c = c) ∧
      (¬c.nswe &&& NSWE_ALL = NSWE_ALL →
        unblockStep c = ⟨c.height, NSWE_ALL_L2D⟩)) ∧
    regionWF (cmd_unblock_loop region cx cy radius).1 ∧
    (cmd_unblock_loop region cx cy radius).2 =
      ((visitList cx cy radius).map (pairModCount region)).sum ∧
    (∀ dx dy : Int, -(radius : Int) ≤ dx → dx ≤ radius →
      -(radius : Int) ≤ dy → dy ≤ radius → inRangePair (cx + dx, cy + dy) →
      (cmd_unblock_loop region cx cy radius).1.get_layers
          (cx + dx).toNat (cy + dy).toNat =
        (region.get_layers (cx + dx).toNat (cy + dy).toNat).map
          (List.map unblockStep)) ∧
    (∀ x y : Nat, x < 2048 → y < 2048 →
      (∀ dx dy : Int, -(radius : Int) ≤ dx → dx ≤ radius →
        -(radius : Int) ≤ dy → dy ≤ radius →
        ¬((x : Int) = cx + dx ∧ (y : Int) = cy + dy)) →
      (cmd_unblock_loop region cx cy radius).1.get_layers x y =
        region.get_layers x y) ∧
    (cmd_unblock_loop c8Region 80 80 3).2 = 16 ∧
    (cmd_unblock_loop c8Region 80 80 3).1.get_layers 80 80 =
      some [⟨0, NSWE_ALL_L2D⟩] ∧
    (cmd_unblock_loop c8Region 80 80 3).1.get_layers 84 84 = some [⟨0, 0⟩] := by
  have hloop := cmd_unblock_loop_eq_visits region cx cy radius
  obtain ⟨h1, h2, h3, h4⟩ := foldVisits_spec (visitList cx cy radius)
    (visitList_nodup cx cy radius) region hwf 0
  refine ⟨fun c => ⟨fun h => unblockStep_walkable h,
      fun h => unblockStep_blocked h⟩,
    by rw [hloop]; exact h1,
    by rw [hloop, h2, Nat.zero_add],
    ?_, ?_, ?_, ?_, ?_⟩
  · intro dx dy hdx1 hdx2 hdy1 hdy2 hin
    rw [hloop]
    exact h3 (cx + dx, cy + dy)
      (mem_visitList.mpr ⟨dx, dy, ⟨hdx1, hdx2⟩, ⟨hdy1, hdy2⟩, rfl⟩) hin
  · intro x y hx hy hforall
    rw [hloop]
    refine h4 x y hx hy ?_
    intro p hp hpin hc
    obtain ⟨dx, dy, hdx, hdy, rfl⟩ := mem_visitList.mp hp
    have ha : (0 : Int) ≤ cx + dx := hpin.1
    have hb : (0 : Int) ≤ cy + dy := hpin.2.2.1
    obtain ⟨hc1, hc2⟩ := hc
    exact hforall dx dy hdx.1 hdx.2 hdy.1 hdy.2 ⟨by omega, by omega⟩
  · decide
  · decide
  · decide

/-- C8 witness: the scenario region is well-formed and the scenario call
returns 16. -/
theorem c8_area_unblock_witness :
    regionWF c8Region ∧ (cmd_unblock_loop c8Region 80 80 3).2 = 16 :=
  ⟨c8Region_wf,
    (c8_area_unblock c8Region c8Region_wf 80 80 3).2.2.2.2.2.1⟩

set_option maxRecDepth 100000 in
/-- C8 counterexample to the spec's scenario: on the region whose only
non-Flat block is the all-blocked Complex block at `(10, 10)`, unblock
at `(80, 80)` with radius 3 returns 16, not 49 — the 7×7 visited square
`[77, 83]²` overlaps that block (cells `[80, 88)²`) in only 4×4 = 16
cells. -/
theorem c8_counterexample :
    (cmd_unblock_loop c8Region 80 80 3).2 = 16 ∧
      (cmd_unblock_loop c8Region 80 80 3).2 ≠ 49 := by
  have h : (cmd_unblock_loop c8Region 80 80 3).2 = 16 := by decide
  exact ⟨h, by rw [h]; decide⟩

end L2J
